import Mathlib

/-!
Shallow embedding of the frisbee/imagezip image-codec core, covering:
  * the relocation table (src/imagezip/libndz/reloc.c),
  * the imagedump magic checks (src/src/imagezip/imagedump.c),
  * the signature writer decision logic and the hash-map delta engine
    (src/src/imagezip/hashmap/hashmap.c).

Machine integers are modelled as `Nat`; sector addresses never overflow in
the scenarios the claims quantify over, and where the C code compares with
fixed-width limits the bounds appear explicitly (`UINT32_MAX`).
-/

namespace Frisbee

/-! ### Constants from src/src/imagezip/imagehdr.h -/

def COMPRESSED_MAGIC_BASE : Nat := 0x69696969
def COMPRESSED_V1 : Nat := COMPRESSED_MAGIC_BASE + 0
def COMPRESSED_V2 : Nat := COMPRESSED_MAGIC_BASE + 1
def COMPRESSED_V3 : Nat := COMPRESSED_MAGIC_BASE + 2
def COMPRESSED_V4 : Nat := COMPRESSED_MAGIC_BASE + 3
def COMPRESSED_V5 : Nat := COMPRESSED_MAGIC_BASE + 4
def COMPRESSED_V6 : Nat := COMPRESSED_MAGIC_BASE + 5

/-- imagehdr.h: `#define COMPRESSED_MAGIC_CURRENT COMPRESSED_V5`
("XXX V6 not ready for prime time yet."). -/
def COMPRESSED_MAGIC_CURRENT : Nat := COMPRESSED_V5

def UINT32_MAX : Nat := 2 ^ 32 - 1

/-- Modelled from the spec: `HASH_TYPE_SHA256` comes from imagehash.h, which
is not under src/; only its distinctness from the other hash-type codes
matters to the claims, the exact numeral does not. -/
def HASH_TYPE_SHA256 : Nat := 3

/-- Modelled from the spec: sentinel initial value of `reloclo`
(`NDZ_HIADDR` from libndz.h, not under src/); reloc.c tests
`reloclo == NDZ_HIADDR` to detect an empty table, so the sentinel is the
largest 64-bit address. -/
def NDZ_HIADDR : Nat := 2 ^ 64 - 1

/-- Modelled from the spec: sentinel initial value of `relochi`
(`NDZ_LOADDR` from libndz.h, not under src/), the smallest address. -/
def NDZ_LOADDR : Nat := 0

/-! ### Relocation table (src/imagezip/libndz/reloc.c) -/

/-- One relocation record (`blockreloc_t`); the 32- and 64-bit layouts carry
the same fields, so a single record type tagged by the table's `reloc32`
flag models both. -/
structure BlockReloc where
  rtype : Nat
  sector : Nat
  sectoff : Nat
  rsize : Nat
deriving Repr, DecidableEq

/-- The relocation-related fields of `struct ndz_file`.  `relocdata = []`
models a NULL `relocdata` pointer; `relocentries` is kept as its own field
exactly as in the C struct. -/
structure NdzFile where
  reloc32 : Bool
  relocdata : List BlockReloc
  relocentries : Nat
  reloclo : Nat
  relochi : Nat
deriving Repr, DecidableEq

/-- `ndz_reloc_init`. -/
def ndz_reloc_init : NdzFile :=
  { reloc32 := true, relocdata := [], relocentries := 0,
    reloclo := NDZ_HIADDR, relochi := NDZ_LOADDR }

/-- `ndz_reloc_free`: frees `relocdata` (sets it NULL) and zeroes
`relocentries`; `reloclo`/`relochi` are left alone. -/
def ndz_reloc_free (ndz : NdzFile) : NdzFile :=
  { ndz with relocdata := [], relocentries := 0 }

/-- The record-copy loop of `ndz_reloc_get` (reloc.c lines 96-113): for each
incoming record, set `reloclo` on the first record ever, assert the record's
sector is not below `reloclo`, grow `relochi`, and append the record.
`none` models an `assert` abort. -/
def ndz_reloc_get_loop : NdzFile → List BlockReloc → Option NdzFile
  | ndz, [] => some ndz
  | ndz, r :: rs =>
    if (if ndz.reloclo = NDZ_HIADDR then r.sector else ndz.reloclo) ≤ r.sector then
      ndz_reloc_get_loop
        { ndz with
          relocdata := ndz.relocdata ++ [r],
          reloclo := if ndz.reloclo = NDZ_HIADDR then r.sector else ndz.reloclo,
          relochi := if r.sector > ndz.relochi then r.sector else ndz.relochi }
        rs
    else
      none

/-- `ndz_reloc_get`: append the relocation records of one chunk header to
the table.  `magic` is `hdr->magic`, `chunkrelocs` the records in the chunk
buffer, `allocOk` models whether the `malloc`/`realloc` of the resized
buffer succeeds.  Result `some (st, ret)` gives the new table state and the
C return value; `none` models an `assert` abort (width mismatch or
out-of-order record). -/
def ndz_reloc_get (ndz : NdzFile) (magic : Nat) (chunkrelocs : List BlockReloc)
    (allocOk : Bool) : Option (NdzFile × Int) :=
  if magic < COMPRESSED_V2 ∨ chunkrelocs.length = 0 then
    some (ndz, 0)
  else
    if ndz.relocdata = [] then
      ndz_reloc_get_core { ndz with reloc32 := decide (magic < COMPRESSED_V5) }
        chunkrelocs allocOk
    else if decide (magic < COMPRESSED_V5) = ndz.reloc32 then
      ndz_reloc_get_core ndz chunkrelocs allocOk
    else
      none
where
  /-- The alloc-then-copy tail of `ndz_reloc_get` after the width check. -/
  ndz_reloc_get_core (ndz : NdzFile) (chunkrelocs : List BlockReloc)
      (allocOk : Bool) : Option (NdzFile × Int) :=
    if allocOk then
      match ndz_reloc_get_loop ndz chunkrelocs with
      | none => none
      | some st =>
        some ({ st with relocentries := ndz.relocentries + chunkrelocs.length }, 0)
    else
      some (ndz_reloc_free ndz, -1)

/-- `ndz_reloc_put`: copy into the output buffer the stored records whose
sector lies in `[firstsect, lastsect)`.  Returns the C return value and the
records placed in `buf`.  The loop visits every stored record (there is no
early exit) and the function returns 0 on success. -/
def ndz_reloc_put (ndz : NdzFile) (firstsect lastsect : Nat) : Int × List BlockReloc :=
  if ndz.relocentries = 0 ∨ firstsect > ndz.relochi ∨ lastsect ≤ ndz.reloclo then
    (0, [])
  else
    (0, ndz.relocdata.filter fun r => firstsect ≤ r.sector ∧ r.sector < lastsect)

/-- Feed a sequence of chunks' relocation records through `ndz_reloc_get`,
starting from a given state, with a fixed header magic and no allocation
failures. -/
def ndz_reloc_get_seq (magic : Nat) : NdzFile → List (List BlockReloc) → Option NdzFile
  | st, [] => some st
  | st, c :: cs =>
    match ndz_reloc_get st magic c true with
    | some (st', _) => ndz_reloc_get_seq magic st' cs
    | none => none

/-- Table invariant maintained by `ndz_reloc_get`: entry count matches,
sectors are stored in ascending order and below the `NDZ_HIADDR` sentinel,
the sentinels mean "empty", and on a nonempty table `reloclo`/`relochi` are
the minimum/maximum stored sector. -/
def RelocInv (st : NdzFile) : Prop :=
  (st.relocdata.map BlockReloc.sector).Pairwise (· ≤ ·) ∧
  (∀ r ∈ st.relocdata, r.sector < NDZ_HIADDR) ∧
  (st.relocdata = [] → st.reloclo = NDZ_HIADDR ∧ st.relochi = NDZ_LOADDR) ∧
  (st.relocdata ≠ [] →
    ((∃ r ∈ st.relocdata, st.reloclo = r.sector) ∧
      (∀ r ∈ st.relocdata, st.reloclo ≤ r.sector) ∧
      (∃ r ∈ st.relocdata, st.relochi = r.sector) ∧
      (∀ r ∈ st.relocdata, r.sector ≤ st.relochi)))

/-! ### imagedump magic checks (src/src/imagezip/imagedump.c) -/

/-- The first-chunk magic test of `dumpfile` (imagedump.c lines 284-294): the
magic is accepted when `COMPRESSED_MAGIC_BASE ≤ magic ≤
COMPRESSED_MAGIC_CURRENT`; in quickcheck mode `dumpfile` then immediately
returns 0 (exit status 0), and returns 1 otherwise. -/
def dumpfile_quickcheck (magic : Nat) : Bool :=
  decide (COMPRESSED_MAGIC_BASE ≤ magic ∧ magic ≤ COMPRESSED_MAGIC_CURRENT)

/-- The magic dispatch of `dumpchunk` (imagedump.c lines 488-550): the switch
has cases for V1, V2, V3, V5 and V6; every other magic falls to the default
case ("bad magic") and the chunk is rejected. -/
def dumpchunk_magic_ok (magic : Nat) : Bool :=
  magic = COMPRESSED_V1 ∨ magic = COMPRESSED_V2 ∨ magic = COMPRESSED_V3 ∨
    magic = COMPRESSED_V5 ∨ magic = COMPRESSED_V6

/-! ### Hash regions and signature writing (hashmap.c) -/

/-- A signature hash region (`struct hashregion`); the hash value is opaque
and modelled as a single `Nat`. -/
structure HashRegion where
  start : Nat
  size : Nat
  hash : Nat
deriving Repr, DecidableEq

/-- Outcome of `hashmap_write_hashfile` as far as the claims observe it: the
signature version written, whether a "writing V3 instead" warning was
printed, and the in-memory region array as it is left after the call. -/
structure WriteHashfileResult where
  version : Nat
  warned : Bool
  finalRegions : List HashRegion
deriving Repr, DecidableEq

/-- `hashmap_write_hashfile` (hashmap.c lines 415-577), reduced to the state
the claims observe.  The function first subtracts `poffset` from every
region start in place (lines 427-434).  If the target image version is
below V5 it tries to narrow to V2: an SHA256 hash type, a failed conversion
malloc (`allocOk = false`), or a relative start above 32 bits each abort the
narrowing with a warning and the original (already offset-adjusted) regions
are written as V3; otherwise the narrowed regions replace `nhinfo` and are
written as V2.  For image version ≥ V5 a V3 signature is written with no
warning.  No path adds `poffset` back to the in-memory starts. -/
def hashmap_write_hashfile (ivers hashtype : Nat) (allocOk : Bool)
    (poffset : Nat) (regions : List HashRegion) : WriteHashfileResult :=
  let rel := regions.map fun r => { r with start := r.start - poffset }
  if ivers < COMPRESSED_V5 then
    if hashtype = HASH_TYPE_SHA256 then
      { version := 3, warned := true, finalRegions := rel }
    else if allocOk = false then
      { version := 3, warned := true, finalRegions := rel }
    else if rel.all (fun r => r.start ≤ UINT32_MAX) then
      { version := 2, warned := false, finalRegions := rel }
    else
      { version := 3, warned := true, finalRegions := rel }
  else
    { version := 3, warned := false, finalRegions := rel }

/-! ### Hash-block splitting (`add_to_hashmap`, hashmap.c lines 623-672) -/

/-- The piece-splitting loop of `add_to_hashmap`: starting with `offset =
(rstart - poffset) % hashblksize`, carve `(rstart, rsize)` into pieces that
never cross a `hashblksize` boundary relative to the partition base.  The
first argument is fuel (the loop consumes at least one sector per
iteration, so `rsize` is enough fuel). -/
def add_to_hashmap_hsize (blk offset rsz : Nat) : Nat :=
  if offset ≠ 0 then min (blk - offset) rsz
  else if rsz > blk then blk
  else rsz

def add_to_hashmap_pieces : Nat → Nat → Nat → Nat → Nat → List (Nat × Nat)
  | 0, _, _, _, _ => []
  | _ + 1, _, _, 0, _ => []
  | fuel + 1, blk, rstart, rsize + 1, offset =>
    (rstart, add_to_hashmap_hsize blk offset (rsize + 1)) ::
      add_to_hashmap_pieces fuel blk
        (rstart + add_to_hashmap_hsize blk offset (rsize + 1))
        (rsize + 1 - add_to_hashmap_hsize blk offset (rsize + 1)) 0

/-- The pieces `add_to_hashmap` emits for the range `(rstart, rsize)`. -/
def add_to_hashmap_split (blk poffset rstart rsize : Nat) : List (Nat × Nat) :=
  add_to_hashmap_pieces rsize blk rstart rsize ((rstart - poffset) % blk)

/-- `(a, ps, b)` holds when the pieces `ps` tile the interval `[a, b)`
consecutively: each piece starts where the previous one ended. -/
def IsTiling : Nat → List (Nat × Nat) → Nat → Prop
  | a, [], b => a = b
  | a, (s, z) :: ps, b => s = a ∧ IsTiling (a + z) ps b

/-! ### The delta engine (`hashmap_compute_delta`, hashmap.c lines 731-1286) -/

/-- A node of the allocated-range list (`struct range`, minus the `next`
pointer: lists are explicit). -/
structure Range where
  start : Nat
  size : Nat
deriving Repr, DecidableEq

/-- The engine's module-level environment plus the external collaborators it
consumes: `diskHash s z` is the hash of the current disk contents of sector
range `[s, s+z)` after fixup application, `hasfixup` the fixup-overlap
query, and `readFail s z` injects an I/O failure for reads of `[s, s+z)`
(`hash_range` returning -1). -/
structure DeltaEnv where
  hash_free : Bool
  newhashfile : Bool
  poffset : Nat
  hashblksize : Nat
  diskHash : Nat → Nat → Nat
  hasfixup : Nat → Nat → Bool
  readFail : Nat → Nat → Bool

/-- `add_to_range` (hashmap.c lines 250-276): append `(s, z)` to the output
list, coalescing with the tail when it ends exactly at `s`.  The list is
kept in reverse order (head = the C list's tail) so the tail is at hand;
`hashmap_compute_delta` reverses it at the end. -/
def add_to_range (racc : List Range) (s z : Nat) : List Range :=
  match racc with
  | [] => [⟨s, z⟩]
  | t :: rest => if t.start + t.size = s then ⟨t.start, t.size + z⟩ :: rest
                 else ⟨s, z⟩ :: t :: rest

deriving instance DecidableEq for Except

/-- The new-signature accumulator: `none` models the NULL `nhinfo` pointer,
`some l` a buffer holding regions `l`. -/
abbrev NHInfo := Option (List HashRegion)

/-- One `addhash` append. -/
def addhash (nh : NHInfo) (s z h : Nat) : NHInfo :=
  some (nh.getD [] ++ [⟨s, z, h⟩])

/-- The per-piece body of `add_to_hashmap`: with a caller-provided hash
(`rhash = some h`) every piece records `h`; with none, each piece is read
from disk (`hash_range`, which can fail) and hashed.  On failure the error
carries the `nhinfo` accrued so far, as the C global would hold it at the
`goto error`. -/
def add_to_hashmap_go (env : DeltaEnv) (rhash : Option Nat) :
    List (Nat × Nat) → NHInfo → Except NHInfo NHInfo
  | [], nh => .ok nh
  | (s, z) :: ps, nh =>
    match rhash with
    | some h => add_to_hashmap_go env rhash ps (addhash nh s z h)
    | none =>
      if env.readFail s z then .error nh
      else add_to_hashmap_go env rhash ps (addhash nh s z (env.diskHash s z))

/-- `add_to_hashmap` (hashmap.c lines 623-672) as used by the delta walk. -/
def add_to_hashmapM (env : DeltaEnv) (nh : NHInfo) (rstart rsize : Nat)
    (rhash : Option Nat) : Except NHInfo NHInfo :=
  add_to_hashmap_go env rhash
    (add_to_hashmap_split env.hashblksize env.poffset rstart rsize) nh

/-- `hash_and_cmp` (hashmap.c lines 213-245): read and hash the hreg's
range, compare with the stored hash; `.ok (changed, freshHash)`. -/
def hash_and_cmpM (env : DeltaEnv) (h : HashRegion) : Except Unit (Nat × Nat) :=
  if env.readFail h.start h.size then .error ()
  else
    let fresh := env.diskHash h.start h.size
    .ok (if fresh = h.hash then 0 else 1, fresh)

/-- The leading-drange drain (hashmap.c lines 846-870): dranges that end at
or before the hreg's start are new-to-current; emit them to the output and,
when a new signature is requested, hash them into it. -/
def drainLoop (env : DeltaEnv) :
    List Range → Nat → List Range → NHInfo →
    Except NHInfo (List Range × NHInfo × List Range)
  | [], _, out, nh => .ok (out, nh, [])
  | d :: rest, hstart, out, nh =>
    if d.start + d.size ≤ hstart then
      let out' := add_to_range out d.start d.size
      if env.newhashfile then
        match add_to_hashmapM env nh d.start d.size none with
        | .error e => .error e
        | .ok nh' => drainLoop env rest hstart out' nh'
      else drainLoop env rest hstart out' nh
    else .ok (out, nh, d :: rest)

/-- The covered-drange loop (hashmap.c lines 1035-1117): walk the dranges
that start inside the hreg; a drange crossing the hreg's end is split and
its tail left for the next hreg.  With `changed ≠ 0` the covered piece is
emitted; with `changed > 1` (no-compare or fixup) per-drange hash entries
are also added. -/
def coveredLoop (env : DeltaEnv) (h : HashRegion) (changed : Nat) :
    List Range → List Range → NHInfo →
    Except NHInfo (List Range × NHInfo × List Range)
  | [], out, nh => .ok (out, nh, [])
  | d :: rest, out, nh =>
    let hregend := h.start + h.size
    if d.start < hregend then
      let curstart := d.start
      let curend0 := d.start + d.size
      let curend := if curend0 > hregend then hregend else curend0
      let out' := if changed ≠ 0 then add_to_range out curstart (curend - curstart) else out
      let nhE : Except NHInfo NHInfo :=
        if changed > 1 ∧ env.newhashfile then
          add_to_hashmapM env nh curstart (curend - curstart) none
        else .ok nh
      match nhE with
      | .error e => .error e
      | .ok nh' =>
        if curend0 > hregend then
          .ok (out', nh', ⟨hregend, curend0 - hregend⟩ :: rest)
        else
          coveredLoop env h changed rest out' nh'
    else .ok (out, nh, d :: rest)

/-- Result of one iteration of the outer hreg loop. -/
structure StepRes where
  out : List Range
  nh : NHInfo
  dr : List Range
  stop : Bool
deriving Repr, DecidableEq

/-- One iteration of the outer loop of `hashmap_compute_delta` for hash
region `h` (hashmap.c lines 831-1167): drain leading dranges, break when
the dranges are exhausted, skip a deallocated hreg, split off a drange head
that precedes the hreg, decide `changed` (fixup ⇒ 3; gap in coverage with
`hash_free` off ⇒ 2; else hash-and-compare ⇒ 0/1, adding one whole-hreg
entry with the fresh hash to the new signature), then process the covered
dranges. -/
def hregStep (env : DeltaEnv) (h : HashRegion) (dr : List Range)
    (out : List Range) (nh : NHInfo) : Except NHInfo StepRes :=
  match drainLoop env dr h.start out nh with
  | .error e => .error e
  | .ok (out1, nh1, dr1) =>
    match dr1 with
    | [] => .ok ⟨out1, nh1, [], true⟩
    | d :: rest =>
      if h.start + h.size ≤ d.start then
        .ok ⟨out1, nh1, d :: rest, false⟩
      else
        let headSplit := d.start < h.start
        let before := h.start - d.start
        let out2 := if headSplit then add_to_range out1 d.start before else out1
        let nh2E : Except NHInfo NHInfo :=
          if headSplit ∧ env.newhashfile then
            add_to_hashmapM env nh1 d.start before none
          else .ok nh1
        match nh2E with
        | .error e => .error e
        | .ok nh2 =>
          let d2 : Range := if headSplit then ⟨h.start, d.size - before⟩ else d
          if env.hash_free ∨ (d2.start = h.start ∧ d2.size ≥ h.size) then
            if env.hasfixup h.start h.size then
              match coveredLoop env h 3 (d2 :: rest) out2 nh2 with
              | .error e => .error e
              | .ok (out4, nh4, dr4) => .ok ⟨out4, nh4, dr4, dr4.isEmpty⟩
            else
              match hash_and_cmpM env h with
              | .error _ => .error nh2
              | .ok (changed, fresh) =>
                let nh3E : Except NHInfo NHInfo :=
                  if env.newhashfile then
                    add_to_hashmapM env nh2 h.start h.size (some fresh)
                  else .ok nh2
                match nh3E with
                | .error e => .error e
                | .ok nh3 =>
                  match coveredLoop env h changed (d2 :: rest) out2 nh3 with
                  | .error e => .error e
                  | .ok (out4, nh4, dr4) => .ok ⟨out4, nh4, dr4, dr4.isEmpty⟩
          else
            match coveredLoop env h 2 (d2 :: rest) out2 nh2 with
            | .error e => .error e
            | .ok (out4, nh4, dr4) => .ok ⟨out4, nh4, dr4, dr4.isEmpty⟩

/-- The trailing-drange loop (hashmap.c lines 1215-1237): dranges left after
the hregs are exhausted are new data. -/
def trailingLoop (env : DeltaEnv) :
    List Range → List Range → NHInfo → Except NHInfo (List Range × NHInfo)
  | [], out, nh => .ok (out, nh)
  | d :: rest, out, nh =>
    let out' := add_to_range out d.start d.size
    if env.newhashfile then
      match add_to_hashmapM env nh d.start d.size none with
      | .error e => .error e
      | .ok nh' => trailingLoop env rest out' nh'
    else trailingLoop env rest out' nh

/-- The outer hreg loop followed by the trailing-drange loop. -/
def hregLoop (env : DeltaEnv) :
    List HashRegion → List Range → List Range → NHInfo →
    Except NHInfo (List Range × NHInfo)
  | [], dr, out, nh => trailingLoop env dr out nh
  | h :: hs, dr, out, nh =>
    match hregStep env h dr out nh with
    | .error e => .error e
    | .ok r => if r.stop then .ok (r.out, r.nh) else hregLoop env hs r.dr r.out r.nh

/-- Observable fixup/cleanup actions of `hashmap_compute_delta`:
`savefixups()`, `restorefixups(commit)`, `free(nhinfo)` and
`freeranges(...)` on the error path. -/
inductive FixEvent
  | save
  | restore (commit : Bool)
  | freeNH
  | freeRanges
deriving Repr, DecidableEq

/-- What `hashmap_compute_delta` returns and does. -/
structure DeltaResult where
  ret : Int
  nranges : List Range
  nhinfo : NHInfo
  events : List FixEvent
deriving Repr

/-- `hashmap_compute_delta` (hashmap.c lines 731-1286) with the signature
file already read into `hregs`.  On success the output list (built in
reverse) is reversed into `nranges` and, when a new signature was
requested, a NULL `nhinfo` is replaced by a fresh empty one (lines
1245-1254) and the saved fixups are commit-restored.  On any failure the
`goto error` path rolls back the fixups (when they were saved), frees a
non-NULL `nhinfo`, frees the partial range list, and returns -1. -/
def hashmap_compute_delta (env : DeltaEnv) (curranges : List Range)
    (hregs : List HashRegion) : DeltaResult :=
  let ev0 := if env.newhashfile then [FixEvent.save] else []
  match hregLoop env hregs curranges [] none with
  | .ok (out, nh) =>
    { ret := 0,
      nranges := out.reverse,
      nhinfo := if env.newhashfile then some (nh.getD []) else nh,
      events := ev0 ++ (if env.newhashfile then [FixEvent.restore true] else []) }
  | .error nhAtFail =>
    { ret := -1,
      nranges := [],
      nhinfo := none,
      events := ev0 ++ (if env.newhashfile then [FixEvent.restore false] else []) ++
        (if nhAtFail.isSome then [FixEvent.freeNH] else []) ++ [FixEvent.freeRanges] }

/-- A point `x` lies in the sector coverage of a range list. -/
def covP (l : List Range) (x : Nat) : Prop :=
  ∃ r ∈ l, r.start ≤ x ∧ x < r.start + r.size

instance (l : List Range) (x : Nat) : Decidable (covP l x) :=
  inferInstanceAs (Decidable (∃ r ∈ l, _ ∧ _))

/-- Well-formed range list: positive sizes, ascending and non-overlapping
(spec §3, Entity Range / §5 ordering guarantees). -/
def WFRanges (l : List Range) : Prop :=
  (∀ r ∈ l, 0 < r.size) ∧ l.Pairwise (fun a b => a.start + a.size ≤ b.start)

instance (l : List Range) : Decidable (WFRanges l) :=
  inferInstanceAs (Decidable (_ ∧ _))

/-- The sector coverage of the hash regions whose recomputed (post-fixup)
hash over the current disk matches their stored hash. -/
def matchedCov (env : DeltaEnv) (hregs : List HashRegion) (x : Nat) : Prop :=
  ∃ h ∈ hregs, env.diskHash h.start h.size = h.hash ∧ h.start ≤ x ∧ x < h.start + h.size

instance (env : DeltaEnv) (hregs : List HashRegion) (x : Nat) :
    Decidable (matchedCov env hregs x) :=
  inferInstanceAs (Decidable (∃ h ∈ hregs, _ ∧ _ ∧ _))

/-- Concrete environment for the delta-walk examples: `hash_free` on (the
compiled default), no fixups, no read failures, hashes modelled by
`fun s z => s + z`, hash-block size 100 sectors, partition base 0, no new
signature requested. -/
def envGap : DeltaEnv :=
  { hash_free := true, newhashfile := false, poffset := 0, hashblksize := 100,
    diskHash := fun s z => s + z, hasfixup := fun _ _ => false,
    readFail := fun _ _ => false }

/-- Like `envGap` but with a new signature requested and hash-block size 10,
so a hash region of size 10 starting at sector 5 crosses a block
boundary. -/
def envCross : DeltaEnv :=
  { hash_free := true, newhashfile := true, poffset := 0, hashblksize := 10,
    diskHash := fun s z => s + z, hasfixup := fun _ _ => false,
    readFail := fun _ _ => false }

/-- Like `envCross` with block size 50 and an injected read failure on the
sector range `[100, 110)`. -/
def envErr : DeltaEnv :=
  { hash_free := true, newhashfile := true, poffset := 0, hashblksize := 50,
    diskHash := fun s z => s + z, hasfixup := fun _ _ => false,
    readFail := fun s z => decide (s = 100 ∧ z = 10) }

/-! ## Theorems -/

/-- Claim C5 counterexample: the claim says quickcheck exits 0 exactly on the
accepted versions {1,2,3,5,6} with version 4 rejected; but at magic
`COMPRESSED_V4` quickcheck exits 0 while `dumpchunk` rejects the chunk, and
at `COMPRESSED_V6` quickcheck exits nonzero while `dumpchunk` accepts it. -/
theorem claim5_counterexample :
    dumpfile_quickcheck COMPRESSED_V4 = true ∧
    dumpchunk_magic_ok COMPRESSED_V4 = false ∧
    dumpfile_quickcheck COMPRESSED_V6 = false ∧
    dumpchunk_magic_ok COMPRESSED_V6 = true := by
  decide

/-- Claim C5 (amended): `dumpchunk` accepts exactly the magics of versions
1, 2, 3, 5 and 6 (version 4 falls to the rejecting default case), while
quickcheck mode exits 0 exactly when `COMPRESSED_MAGIC_BASE ≤ magic ≤
COMPRESSED_MAGIC_CURRENT` (versions 1 through 5), so quickcheck passes
version 4 and fails version 6. -/
theorem claim5_magic_checks (m : Nat) :
    (dumpchunk_magic_ok m = true ↔
      (m = COMPRESSED_V1 ∨ m = COMPRESSED_V2 ∨ m = COMPRESSED_V3 ∨
        m = COMPRESSED_V5 ∨ m = COMPRESSED_V6)) ∧
    (dumpfile_quickcheck m = true ↔
      (COMPRESSED_MAGIC_BASE ≤ m ∧ m ≤ COMPRESSED_V5)) := by
  constructor
  · simp [dumpchunk_magic_ok]
  · simp [dumpfile_quickcheck, COMPRESSED_MAGIC_CURRENT]

/-- Claim C6: `hashmap_write_hashfile` emits V2 exactly when the image
version is below V5, the hash type is not SHA256, the conversion buffer
allocation succeeds, and every (partition-relative, as written) region
start fits in 32 bits; every other case emits V3, with the warning printed
exactly when narrowing was attempted (version below V5) but failed. -/
theorem claim6_write_version (ivers hashtype : Nat) (allocOk : Bool)
    (poffset : Nat) (regions : List HashRegion) :
    ((hashmap_write_hashfile ivers hashtype allocOk poffset regions).version = 2 ↔
      (ivers < COMPRESSED_V5 ∧ hashtype ≠ HASH_TYPE_SHA256 ∧ allocOk = true ∧
        ∀ r ∈ regions, r.start - poffset ≤ UINT32_MAX)) ∧
    ((hashmap_write_hashfile ivers hashtype allocOk poffset regions).version = 3 ↔
      ¬(ivers < COMPRESSED_V5 ∧ hashtype ≠ HASH_TYPE_SHA256 ∧ allocOk = true ∧
        ∀ r ∈ regions, r.start - poffset ≤ UINT32_MAX)) ∧
    ((hashmap_write_hashfile ivers hashtype allocOk poffset regions).warned = true ↔
      (ivers < COMPRESSED_V5 ∧ ¬(hashtype ≠ HASH_TYPE_SHA256 ∧ allocOk = true ∧
        ∀ r ∈ regions, r.start - poffset ≤ UINT32_MAX))) := by
  have hc : ((regions.map fun r => ({ r with start := r.start - poffset } : HashRegion)).all
      fun r => r.start ≤ UINT32_MAX) = true ↔
      (∀ r ∈ regions, r.start - poffset ≤ UINT32_MAX) := by
    simp [List.all_eq_true]
  unfold hashmap_write_hashfile
  by_cases h1 : ivers < COMPRESSED_V5
  · rw [if_pos h1]
    by_cases h2 : hashtype = HASH_TYPE_SHA256
    · rw [if_pos h2]
      exact ⟨⟨fun hv => by simp at hv, fun ⟨_, hne, _, _⟩ => absurd h2 hne⟩,
             ⟨fun _ => fun ⟨_, hne, _, _⟩ => absurd h2 hne, fun _ => rfl⟩,
             ⟨fun _ => ⟨h1, fun ⟨hne, _, _⟩ => absurd h2 hne⟩, fun _ => rfl⟩⟩
    · rw [if_neg h2]
      by_cases h3 : allocOk = true
      · rw [if_neg (by simp [h3])]
        by_cases h4 : ∀ r ∈ regions, r.start - poffset ≤ UINT32_MAX
        · rw [if_pos (hc.mpr h4)]
          exact ⟨⟨fun _ => ⟨h1, h2, h3, h4⟩, fun _ => rfl⟩,
                 ⟨fun hv => by simp at hv, fun hn => absurd ⟨h1, h2, h3, h4⟩ hn⟩,
                 ⟨fun hw => by simp at hw, fun ⟨_, hn⟩ => absurd ⟨h2, h3, h4⟩ hn⟩⟩
        · rw [if_neg (fun hcc => h4 (hc.mp hcc))]
          exact ⟨⟨fun hv => by simp at hv, fun ⟨_, _, _, hf⟩ => absurd hf h4⟩,
                 ⟨fun _ => fun ⟨_, _, _, hf⟩ => absurd hf h4, fun _ => rfl⟩,
                 ⟨fun _ => ⟨h1, fun ⟨_, _, hf⟩ => absurd hf h4⟩, fun _ => rfl⟩⟩
      · rw [if_pos (by cases allocOk <;> simp_all)]
        exact ⟨⟨fun hv => by simp at hv, fun ⟨_, _, ha, _⟩ => absurd ha h3⟩,
               ⟨fun _ => fun ⟨_, _, ha, _⟩ => absurd ha h3, fun _ => rfl⟩,
               ⟨fun _ => ⟨h1, fun ⟨_, ha, _⟩ => absurd ha h3⟩, fun _ => rfl⟩⟩
  · rw [if_neg h1]
    exact ⟨⟨fun hv => by simp at hv, fun ⟨hv5, _⟩ => absurd hv5 h1⟩,
           ⟨fun _ => fun ⟨hv5, _⟩ => absurd hv5 h1, fun _ => rfl⟩,
           ⟨fun hw => by simp at hw, fun ⟨hv5, _⟩ => absurd hv5 h1⟩⟩

/-- Claim C7 counterexample: after `hashmap_write_hashfile` the in-memory
start is NOT restored: with `poffset = 5` a region starting at absolute
sector 100 is left at the partition-relative value 95. -/
theorem claim7_counterexample :
    (hashmap_write_hashfile COMPRESSED_V5 1 true 5
        [{ start := 100, size := 4, hash := 7 }]).finalRegions =
      [{ start := 95, size := 4, hash := 7 }] ∧
    ({ start := 95, size := 4, hash := 7 } : HashRegion) ≠
      { start := 100, size := 4, hash := 7 } := by
  decide

/-- Claim C7 (amended): `hashmap_write_hashfile` subtracts `poffset` from
every in-memory region start and never adds it back; after the call every
in-memory start is partition-relative (`original - poffset`), not the
absolute pre-call value. -/
theorem claim7_no_restore (ivers hashtype : Nat) (allocOk : Bool)
    (poffset : Nat) (regions : List HashRegion)
    (_hpo : ∀ r ∈ regions, poffset ≤ r.start) :
    (hashmap_write_hashfile ivers hashtype allocOk poffset regions).finalRegions.map
        HashRegion.start =
      regions.map (fun r => r.start - poffset) := by
  unfold hashmap_write_hashfile
  by_cases h1 : ivers < COMPRESSED_V5
  · rw [if_pos h1]
    by_cases h2 : hashtype = HASH_TYPE_SHA256
    · rw [if_pos h2]
      simp [List.map_map, Function.comp]
    · rw [if_neg h2]
      by_cases h3 : allocOk = false
      · rw [if_pos h3]
        simp [List.map_map, Function.comp]
      · rw [if_neg h3]
        split <;> simp [List.map_map, Function.comp]
  · rw [if_neg h1]
    simp [List.map_map, Function.comp]

/-- Witness for C7 at a concrete input. -/
theorem claim7_no_restore_witness :
    (∀ r ∈ [({ start := 100, size := 4, hash := 7 } : HashRegion)], 5 ≤ r.start) ∧
    (hashmap_write_hashfile COMPRESSED_V5 1 true 5
        [{ start := 100, size := 4, hash := 7 }]).finalRegions.map HashRegion.start =
      [({ start := 100, size := 4, hash := 7 } : HashRegion)].map
        (fun r => r.start - 5) :=
  ⟨by decide,
   claim7_no_restore COMPRESSED_V5 1 true 5 [{ start := 100, size := 4, hash := 7 }]
     (by decide)⟩

/-- Claim C8 counterexample: on the table holding sectors [5, 7, 5] (each
record passes `ndz_reloc_get`'s `reloclo ≤ sector` assertion, so the state
is reachable) with chunk window [5, 6), `ndz_reloc_put` copies TWO records
— the scan does not stop at the out-of-window sector 7 — and returns 0,
not the number of records emitted. -/
theorem claim8_counterexample :
    (ndz_reloc_put
        { reloc32 := true,
          relocdata := [{ rtype := 0, sector := 5, sectoff := 0, rsize := 1 },
                        { rtype := 0, sector := 7, sectoff := 0, rsize := 1 },
                        { rtype := 0, sector := 5, sectoff := 0, rsize := 1 }],
          relocentries := 3, reloclo := 5, relochi := 7 } 5 6).2.length = 2 ∧
    (ndz_reloc_put
        { reloc32 := true,
          relocdata := [{ rtype := 0, sector := 5, sectoff := 0, rsize := 1 },
                        { rtype := 0, sector := 7, sectoff := 0, rsize := 1 },
                        { rtype := 0, sector := 5, sectoff := 0, rsize := 1 }],
          relocentries := 3, reloclo := 5, relochi := 7 } 5 6).1 = 0 ∧
    ((0 : Int) ≠ 2) := by
  decide

/-- Claim C8 (amended): `ndz_reloc_put` copies into the output buffer
exactly the stored records whose sector lies in `[firstsect, lastsect)`, in
stored order, by a full linear scan with no early exit, and returns 0 on
success (never the emitted count; -1 is returned only for NULL arguments).
The initial `[lo, hi]` short-circuit emits nothing, which agrees with the
filter when `reloclo`/`relochi` bound the stored sectors. -/
theorem claim8_put_filter (ndz : NdzFile) (firstsect lastsect : Nat)
    (hcnt : ndz.relocentries = ndz.relocdata.length)
    (hbounds : ∀ r ∈ ndz.relocdata,
      ndz.reloclo ≤ r.sector ∧ r.sector ≤ ndz.relochi) :
    (ndz_reloc_put ndz firstsect lastsect).1 = 0 ∧
    (ndz_reloc_put ndz firstsect lastsect).2 =
      ndz.relocdata.filter fun r => firstsect ≤ r.sector ∧ r.sector < lastsect := by
  unfold ndz_reloc_put
  split_ifs with hguard
  · refine ⟨rfl, ?_⟩
    symm
    rw [List.filter_eq_nil_iff]
    intro r hr
    have hb := hbounds r hr
    rcases hguard with h0 | h1 | h2
    · rw [hcnt] at h0
      simp [List.length_eq_zero.mp h0] at hr
    · simp only [decide_eq_true_eq, not_and, not_lt]
      intro hf
      omega
    · simp only [decide_eq_true_eq, not_and, not_lt]
      intro hf
      omega
  · exact ⟨rfl, rfl⟩

/-- Witness for C8 at a concrete input. -/
theorem claim8_put_filter_witness :
    (ndz_reloc_put
        { reloc32 := true,
          relocdata := [{ rtype := 0, sector := 3, sectoff := 0, rsize := 1 },
                        { rtype := 0, sector := 9, sectoff := 0, rsize := 1 }],
          relocentries := 2, reloclo := 3, relochi := 9 } 4 10).1 = 0 ∧
    (ndz_reloc_put
        { reloc32 := true,
          relocdata := [{ rtype := 0, sector := 3, sectoff := 0, rsize := 1 },
                        { rtype := 0, sector := 9, sectoff := 0, rsize := 1 }],
          relocentries := 2, reloclo := 3, relochi := 9 } 4 10).2 =
      [{ rtype := 0, sector := 3, sectoff := 0, rsize := 1 },
       { rtype := 0, sector := 9, sectoff := 0, rsize := 1 }].filter
        (fun r => 4 ≤ r.sector ∧ r.sector < 10) :=
  claim8_put_filter
    { reloc32 := true,
      relocdata := [{ rtype := 0, sector := 3, sectoff := 0, rsize := 1 },
                    { rtype := 0, sector := 9, sectoff := 0, rsize := 1 }],
      relocentries := 2, reloclo := 3, relochi := 9 } 4 10
    (by decide) (by decide)

/-- The record-copy loop of `ndz_reloc_get` succeeds on in-order input and
appends the records while keeping the table invariant. -/
theorem ndz_reloc_get_loop_spec :
    ∀ (rs : List BlockReloc) (st : NdzFile),
      RelocInv st →
      (∀ a ∈ st.relocdata, ∀ t ∈ rs, a.sector ≤ t.sector) →
      (rs.map BlockReloc.sector).Pairwise (· ≤ ·) →
      (∀ t ∈ rs, t.sector < NDZ_HIADDR) →
      ∃ st', ndz_reloc_get_loop st rs = some st' ∧
        st'.relocdata = st.relocdata ++ rs ∧
        st'.relocentries = st.relocentries ∧
        st'.reloc32 = st.reloc32 ∧
        RelocInv st' := by
  intro rs
  induction rs with
  | nil =>
    intro st hinv _ _ _
    exact ⟨st, rfl, by simp, rfl, rfl, hinv⟩
  | cons r rs ih =>
    intro st hinv hcross hsorted hbound
    obtain ⟨hpw, hhi, hemp, hne⟩ := hinv
    have hlor : (if st.reloclo = NDZ_HIADDR then r.sector else st.reloclo) ≤
        r.sector := by
      split
      · exact le_refl _
      · next hsent =>
        by_cases hnil : st.relocdata = []
        · exact absurd (hemp hnil).1 hsent
        · obtain ⟨⟨r0, hr0, hr0e⟩, _, _, _⟩ := hne hnil
          rw [hr0e]
          exact hcross r0 hr0 r (List.mem_cons_self r rs)
    simp only [ndz_reloc_get_loop]
    rw [if_pos hlor]
    set st1 : NdzFile :=
      { st with
        relocdata := st.relocdata ++ [r],
        reloclo := if st.reloclo = NDZ_HIADDR then r.sector else st.reloclo,
        relochi := if r.sector > st.relochi then r.sector else st.relochi }
      with hst1
    have hinv1 : RelocInv st1 := by
      refine ⟨?_, ?_, ?_, ?_⟩
      · simp only [hst1, List.map_append]
        rw [List.pairwise_append]
        refine ⟨hpw, by simp, ?_⟩
        intro a ha b hb
        simp only [List.map_cons, List.map_nil, List.mem_singleton] at hb
        obtain ⟨a0, ha0, ha0e⟩ := List.mem_map.mp ha
        subst hb
        rw [← ha0e]
        exact hcross a0 ha0 r (List.mem_cons_self r rs)
      · intro x hx
        simp only [hst1, List.mem_append, List.mem_singleton] at hx
        rcases hx with hx | hx
        · exact hhi x hx
        · subst hx
          exact hbound x (List.mem_cons_self x rs)
      · intro hx
        simp only [hst1] at hx
        exact absurd hx (by simp)
      · intro _
        have hL : NDZ_LOADDR = 0 := rfl
        by_cases hnil : st.relocdata = []
        · obtain ⟨hlo0, hhi0⟩ := hemp hnil
          have hdata : st1.relocdata = [r] := by simp [hst1, hnil]
          have hlo1 : st1.reloclo = r.sector := by simp [hst1, hlo0]
          have hhi1 : st1.relochi = r.sector := by
            simp only [hst1, hhi0]
            split <;> omega
          refine ⟨⟨r, by simp [hdata], hlo1⟩, ?_, ⟨r, by simp [hdata], hhi1⟩, ?_⟩
          · intro x hx
            rw [hdata, List.mem_singleton] at hx
            subst hx
            rw [hlo1]
          · intro x hx
            rw [hdata, List.mem_singleton] at hx
            subst hx
            rw [hhi1]
        · obtain ⟨⟨r0, hr0, hr0e⟩, hminle, ⟨r1, hr1, hr1e⟩, hmaxge⟩ := hne hnil
          have hsent : ¬ st.reloclo = NDZ_HIADDR := by
            rw [hr0e]
            exact Nat.ne_of_lt (hhi r0 hr0)
          have hdata : st1.relocdata = st.relocdata ++ [r] := by simp [hst1]
          have hlo1 : st1.reloclo = st.reloclo := by simp [hst1, hsent]
          have hlor' : st.reloclo ≤ r.sector := by
            rw [if_neg hsent] at hlor
            exact hlor
          refine ⟨⟨r0, by rw [hdata]; exact List.mem_append_left _ hr0,
              by rw [hlo1, hr0e]⟩, ?_, ?_, ?_⟩
          · intro x hx
            rw [hdata, List.mem_append, List.mem_singleton] at hx
            rw [hlo1]
            rcases hx with hx | hx
            · exact hminle x hx
            · subst hx
              exact hlor'
          · by_cases hgt : r.sector > st.relochi
            · refine ⟨r, by rw [hdata]; exact List.mem_append_right _ (by simp), ?_⟩
              simp [hst1, hgt]
            · refine ⟨r1, by rw [hdata]; exact List.mem_append_left _ hr1, ?_⟩
              simp only [hst1]
              rw [if_neg hgt]
              exact hr1e
          · intro x hx
            rw [hdata, List.mem_append, List.mem_singleton] at hx
            simp only [hst1]
            rcases hx with hx | hx
            · have := hmaxge x hx
              split <;> omega
            · subst hx
              split <;> omega
    have hcross1 : ∀ a ∈ st1.relocdata, ∀ t ∈ rs, a.sector ≤ t.sector := by
      intro a ha t ht
      simp only [hst1, List.mem_append, List.mem_singleton] at ha
      rcases ha with ha | ha
      · exact hcross a ha t (List.mem_cons_of_mem r ht)
      · subst ha
        have := List.pairwise_cons.mp hsorted |>.1
        exact this t.sector (List.mem_map_of_mem BlockReloc.sector ht)
    obtain ⟨st', hrun, hdata, hent, h32, hinv'⟩ :=
      ih st1 hinv1 hcross1 (List.pairwise_cons.mp hsorted).2
        (fun t ht => hbound t (List.mem_cons_of_mem r ht))
    refine ⟨st', hrun, ?_, ?_, ?_, hinv'⟩
    · rw [hdata]
      simp [hst1]
    · rw [hent]
    · rw [h32]

/-- `ndz_reloc_get` succeeds on in-order input, appending the chunk's
records while keeping the table invariant and a width flag consistent with
the (fixed) header magic. -/
theorem ndz_reloc_get_ok (st : NdzFile) (m : Nat) (rs : List BlockReloc)
    (hm : COMPRESSED_V2 ≤ m)
    (hinv : RelocInv st)
    (hwidth : st.relocdata ≠ [] → st.reloc32 = decide (m < COMPRESSED_V5))
    (hcross : ∀ a ∈ st.relocdata, ∀ t ∈ rs, a.sector ≤ t.sector)
    (hsorted : (rs.map BlockReloc.sector).Pairwise (· ≤ ·))
    (hbound : ∀ t ∈ rs, t.sector < NDZ_HIADDR) :
    ∃ st', ndz_reloc_get st m rs true = some (st', 0) ∧
      st'.relocdata = st.relocdata ++ rs ∧
      RelocInv st' ∧
      (st'.relocdata ≠ [] → st'.reloc32 = decide (m < COMPRESSED_V5)) := by
  by_cases hrs : rs = []
  · subst hrs
    exact ⟨st, by simp [ndz_reloc_get], by simp, hinv, hwidth⟩
  · have hguard : ¬(m < COMPRESSED_V2 ∨ rs.length = 0) := by
      push_neg
      exact ⟨by omega, fun h => hrs (List.length_eq_zero.mp h)⟩
    unfold ndz_reloc_get ndz_reloc_get.ndz_reloc_get_core
    rw [if_neg hguard]
    by_cases hnil : st.relocdata = []
    · rw [if_pos hnil]
      set stw : NdzFile := { st with reloc32 := decide (m < COMPRESSED_V5) } with hstw
      have hinvw : RelocInv stw := hinv
      obtain ⟨st1, hrun, hdata, hent, h32, hinv1⟩ :=
        ndz_reloc_get_loop_spec rs stw hinvw hcross hsorted hbound
      rw [if_pos rfl, hrun]
      refine ⟨{ st1 with relocentries := stw.relocentries + rs.length }, rfl,
        hdata, hinv1, fun _ => ?_⟩
      show st1.reloc32 = decide (m < COMPRESSED_V5)
      rw [h32]
    · rw [if_neg hnil, if_pos (hwidth hnil).symm]
      obtain ⟨st1, hrun, hdata, hent, h32, hinv1⟩ :=
        ndz_reloc_get_loop_spec rs st hinv hcross hsorted hbound
      rw [if_pos rfl, hrun]
      refine ⟨{ st1 with relocentries := st.relocentries + rs.length }, rfl,
        hdata, hinv1, fun _ => ?_⟩
      show st1.reloc32 = decide (m < COMPRESSED_V5)
      rw [h32]
      exact hwidth hnil

/-- Feeding a globally in-order stream of chunks through `ndz_reloc_get`
succeeds and appends everything in order. -/
theorem ndz_reloc_get_seq_spec (m : Nat) (hm : COMPRESSED_V2 ≤ m) :
    ∀ (chunks : List (List BlockReloc)) (st : NdzFile),
      RelocInv st →
      (st.relocdata ≠ [] → st.reloc32 = decide (m < COMPRESSED_V5)) →
      (∀ a ∈ st.relocdata, ∀ t ∈ chunks.flatten, a.sector ≤ t.sector) →
      ((chunks.flatten.map BlockReloc.sector).Pairwise (· ≤ ·)) →
      (∀ t ∈ chunks.flatten, t.sector < NDZ_HIADDR) →
      ∃ st', ndz_reloc_get_seq m st chunks = some st' ∧
        st'.relocdata = st.relocdata ++ chunks.flatten ∧ RelocInv st' := by
  intro chunks
  induction chunks with
  | nil =>
    intro st hinv _ _ _ _
    exact ⟨st, rfl, by simp, hinv⟩
  | cons c cs ih =>
    intro st hinv hwidth hcross hsorted hbound
    have hjoin : (c :: cs).flatten = c ++ cs.flatten := by simp
    rw [hjoin] at hcross hsorted hbound
    rw [List.map_append, List.pairwise_append] at hsorted
    obtain ⟨hsc, hscs, hccs⟩ := hsorted
    obtain ⟨st1, hget, hdata1, hinv1, hwidth1⟩ :=
      ndz_reloc_get_ok st m c hm hinv hwidth
        (fun a ha t ht => hcross a ha t (List.mem_append_left _ ht))
        hsc
        (fun t ht => hbound t (List.mem_append_left _ ht))
    obtain ⟨st', hrun, hdata', hinv'⟩ := ih st1 hinv1 hwidth1
      (by
        intro a ha t ht
        rw [hdata1, List.mem_append] at ha
        rcases ha with ha | ha
        · exact hcross a ha t (List.mem_append_right _ ht)
        · exact hccs a.sector (List.mem_map_of_mem BlockReloc.sector ha)
            t.sector (List.mem_map_of_mem BlockReloc.sector ht))
      hscs
      (fun t ht => hbound t (List.mem_append_right _ ht))
    refine ⟨st', ?_, ?_, hinv'⟩
    · simp only [ndz_reloc_get_seq, hget]
      exact hrun
    · rw [hdata', hdata1, hjoin, List.append_assoc]

/-- Claim C9: for every sequence of successful `ndz_reloc_get` calls whose
chunk headers supply relocation records in (globally) ascending sector
order, the stored records remain in ascending sector order, `reloclo` is
the minimum stored sector and `relochi` the maximum. -/
theorem claim9_reloc_ordering (m : Nat) (chunks : List (List BlockReloc))
    (hm : COMPRESSED_V2 ≤ m)
    (hsorted : ((chunks.flatten.map BlockReloc.sector)).Pairwise (· ≤ ·))
    (hbound : ∀ t ∈ chunks.flatten, t.sector < NDZ_HIADDR) :
    ∃ st, ndz_reloc_get_seq m ndz_reloc_init chunks = some st ∧
      st.relocdata = chunks.flatten ∧
      (st.relocdata.map BlockReloc.sector).Pairwise (· ≤ ·) ∧
      (chunks.flatten ≠ [] →
        ((∃ r ∈ st.relocdata, st.reloclo = r.sector) ∧
          (∀ r ∈ st.relocdata, st.reloclo ≤ r.sector) ∧
          (∃ r ∈ st.relocdata, st.relochi = r.sector) ∧
          (∀ r ∈ st.relocdata, r.sector ≤ st.relochi))) := by
  have hinv0 : RelocInv ndz_reloc_init := by
    refine ⟨by simp [ndz_reloc_init], by simp [ndz_reloc_init], ?_, ?_⟩
    · intro _
      exact ⟨rfl, rfl⟩
    · intro h
      exact absurd rfl h
  obtain ⟨st, hrun, hdata, hinv⟩ :=
    ndz_reloc_get_seq_spec m hm chunks ndz_reloc_init hinv0
      (fun h => absurd rfl h)
      (by intro a ha; simp [ndz_reloc_init] at ha)
      hsorted hbound
  have hdata' : st.relocdata = chunks.flatten := by
    rw [hdata]
    simp [ndz_reloc_init]
  obtain ⟨hpw, _, _, hne⟩ := hinv
  refine ⟨st, hrun, hdata', hpw, fun hj => hne ?_⟩
  rw [hdata']
  exact hj

/-- Witness for C9 at a concrete two-chunk sequence. -/
theorem claim9_reloc_ordering_witness :
    ∃ st, ndz_reloc_get_seq COMPRESSED_V2 ndz_reloc_init
        [[{ rtype := 0, sector := 3, sectoff := 0, rsize := 1 }],
         [{ rtype := 0, sector := 5, sectoff := 0, rsize := 1 },
          { rtype := 0, sector := 9, sectoff := 0, rsize := 1 }]] = some st ∧
      st.relocdata =
        [[{ rtype := 0, sector := 3, sectoff := 0, rsize := 1 }],
         [{ rtype := 0, sector := 5, sectoff := 0, rsize := 1 },
          { rtype := 0, sector := 9, sectoff := 0, rsize := 1 }]].flatten ∧
      (st.relocdata.map BlockReloc.sector).Pairwise (· ≤ ·) ∧
      ([[({ rtype := 0, sector := 3, sectoff := 0, rsize := 1 } : BlockReloc)],
        [{ rtype := 0, sector := 5, sectoff := 0, rsize := 1 },
         { rtype := 0, sector := 9, sectoff := 0, rsize := 1 }]].flatten ≠ [] →
        ((∃ r ∈ st.relocdata, st.reloclo = r.sector) ∧
          (∀ r ∈ st.relocdata, st.reloclo ≤ r.sector) ∧
          (∃ r ∈ st.relocdata, st.relochi = r.sector) ∧
          (∀ r ∈ st.relocdata, r.sector ≤ st.relochi))) :=
  claim9_reloc_ordering COMPRESSED_V2
    [[{ rtype := 0, sector := 3, sectoff := 0, rsize := 1 }],
     [{ rtype := 0, sector := 5, sectoff := 0, rsize := 1 },
      { rtype := 0, sector := 9, sectoff := 0, rsize := 1 }]]
    (by decide) (by decide) (by decide)

/-- Splitting a zero-sized range yields no pieces. -/
theorem add_to_hashmap_pieces_zero (fuel blk s off : Nat) :
    add_to_hashmap_pieces fuel blk s 0 off = [] := by
  cases fuel <;> rfl

/-- Splitting a nonempty range (with enough fuel) yields at least one
piece. -/
theorem add_to_hashmap_pieces_ne_nil (fuel blk s m off : Nat) (hm : 0 < m) :
    add_to_hashmap_pieces (fuel + 1) blk s m off ≠ [] := by
  match m, hm with
  | k + 1, _ => simp [add_to_hashmap_pieces]

/-- The boundary-aligned tail of the splitting loop (offset already 0):
the pieces tile `[s, s + m)`, every piece but the last is a full
`hashblksize`, and the sizes sum to `m`. -/
theorem add_to_hashmap_pieces_chain (blk : Nat) (hblk : 0 < blk) :
    ∀ fuel s m, m ≤ fuel →
      IsTiling s (add_to_hashmap_pieces fuel blk s m 0) (s + m) ∧
      (∀ p ∈ (add_to_hashmap_pieces fuel blk s m 0).dropLast, p.2 = blk) ∧
      ((add_to_hashmap_pieces fuel blk s m 0).map Prod.snd).sum = m := by
  intro fuel
  induction fuel with
  | zero =>
    intro s m hm
    have hm0 : m = 0 := Nat.le_zero.mp hm
    subst hm0
    simp [add_to_hashmap_pieces, IsTiling]
  | succ f ih =>
    intro s m hm
    match m with
    | 0 => simp [add_to_hashmap_pieces, IsTiling]
    | k + 1 =>
      simp only [add_to_hashmap_pieces]
      have hs0 : add_to_hashmap_hsize blk 0 (k + 1) =
          if k + 1 > blk then blk else k + 1 := by
        simp [add_to_hashmap_hsize]
      by_cases hbig : k + 1 > blk
      · rw [hs0, if_pos hbig]
        obtain ⟨iht, ihd, ihs⟩ := ih (s + blk) (k + 1 - blk) (by omega)
        have harith : s + blk + (k + 1 - blk) = s + (k + 1) := by omega
        rw [harith] at iht
        refine ⟨⟨rfl, iht⟩, ?_, ?_⟩
        · intro p hp
          have hne : add_to_hashmap_pieces f blk (s + blk) (k + 1 - blk) 0 ≠ [] := by
            match f, (by omega : k + 1 - blk ≤ f), (by omega : 0 < k + 1 - blk) with
            | f' + 1, _, hpos => exact add_to_hashmap_pieces_ne_nil f' blk (s + blk) _ 0 hpos
          obtain ⟨c, cs, hcc⟩ := List.exists_cons_of_ne_nil hne
          rw [hcc, List.dropLast_cons₂] at hp
          rcases List.mem_cons.mp hp with hp | hp
          · rw [hp]
          · exact ihd p (by rw [hcc]; exact hp)
        · simp only [List.map_cons, List.sum_cons, ihs]
          omega
      · rw [hs0, if_neg hbig]
        rw [show k + 1 - (k + 1) = 0 from by omega, add_to_hashmap_pieces_zero]
        refine ⟨⟨rfl, by simp [IsTiling]⟩, by simp, by simp⟩

/-- Claim C3: `add_to_hashmap` splits `(rstart, rsize)` at `hashblksize`
boundaries measured relative to the partition base `ssect`: with
`offset = (rstart - ssect) % hashblksize`, the first piece has size
`min (hashblksize - offset, rsize)`, every other piece except the final
one is a full `hashblksize`, the sizes sum to `rsize`, and the pieces
tile `[rstart, rstart + rsize)` exactly. -/
theorem claim3_hash_chunking (blk ssect rstart rsize : Nat) (hblk : 0 < blk)
    (_hle : ssect ≤ rstart) :
    IsTiling rstart (add_to_hashmap_split blk ssect rstart rsize) (rstart + rsize) ∧
    (0 < rsize →
      (add_to_hashmap_split blk ssect rstart rsize).head? =
        some (rstart, min (blk - (rstart - ssect) % blk) rsize)) ∧
    (∀ p ∈ ((add_to_hashmap_split blk ssect rstart rsize).drop 1).dropLast,
      p.2 = blk) ∧
    ((add_to_hashmap_split blk ssect rstart rsize).map Prod.snd).sum = rsize := by
  unfold add_to_hashmap_split
  match rsize with
  | 0 =>
    simp [add_to_hashmap_pieces_zero, IsTiling]
  | k + 1 =>
    have hoff : (rstart - ssect) % blk < blk := Nat.mod_lt _ hblk
    simp only [add_to_hashmap_pieces]
    have hsz : add_to_hashmap_hsize blk ((rstart - ssect) % blk) (k + 1) =
        min (blk - (rstart - ssect) % blk) (k + 1) := by
      unfold add_to_hashmap_hsize
      split
      · rfl
      · next hz =>
        have hz0 : (rstart - ssect) % blk = 0 := by simpa using hz
        rw [hz0]
        split <;> omega
    rw [hsz]
    set hsize := min (blk - (rstart - ssect) % blk) (k + 1) with hdef
    have hsb : 1 ≤ hsize ∧ hsize ≤ k + 1 := by
      constructor <;> omega
    obtain ⟨iht, ihd, ihs⟩ :=
      add_to_hashmap_pieces_chain blk hblk k (rstart + hsize) (k + 1 - hsize)
        (by omega)
    have harith : rstart + hsize + (k + 1 - hsize) = rstart + (k + 1) := by omega
    rw [harith] at iht
    refine ⟨⟨rfl, iht⟩, fun _ => rfl, ?_, ?_⟩
    · simpa using ihd
    · simp only [List.map_cons, List.sum_cons, ihs]
      omega

/-- Witness for C3 at `blk = 4`, `ssect = 1`, `rstart = 3`, `rsize = 10`
(pieces (3,2), (5,4), (9,4)). -/
theorem claim3_hash_chunking_witness :
    IsTiling 3 (add_to_hashmap_split 4 1 3 10) (3 + 10) ∧
    (0 < 10 →
      (add_to_hashmap_split 4 1 3 10).head? = some (3, min (4 - (3 - 1) % 4) 10)) ∧
    (∀ p ∈ ((add_to_hashmap_split 4 1 3 10).drop 1).dropLast, p.2 = 4) ∧
    ((add_to_hashmap_split 4 1 3 10).map Prod.snd).sum = 10 :=
  claim3_hash_chunking 4 1 3 10 (by decide) (by decide)

/-- Claim C10: when the buffer reallocation inside `ndz_reloc_get` fails,
the call returns -1 after discarding the entire table: `relocdata` is freed
(NULL) and `relocentries` reset to 0, losing every previously appended
record (while `reloclo`/`relochi` are left stale). -/
theorem claim10_alloc_fail_discards (ndz : NdzFile) (magic : Nat)
    (rs : List BlockReloc)
    (hm : COMPRESSED_V2 ≤ magic)
    (hrs : rs ≠ [])
    (hw : ndz.relocdata = [] ∨ decide (magic < COMPRESSED_V5) = ndz.reloc32) :
    ∃ st', ndz_reloc_get ndz magic rs false = some (st', -1) ∧
      st'.relocdata = [] ∧ st'.relocentries = 0 ∧
      st'.reloclo = ndz.reloclo ∧ st'.relochi = ndz.relochi := by
  have hlen : rs.length ≠ 0 := fun h => hrs (List.length_eq_zero.mp h)
  have hguard : ¬(magic < COMPRESSED_V2 ∨ rs.length = 0) := by
    push_neg
    exact ⟨by omega, hlen⟩
  unfold ndz_reloc_get ndz_reloc_get.ndz_reloc_get_core
  rw [if_neg hguard]
  by_cases hnil : ndz.relocdata = []
  · rw [if_pos hnil, if_neg (by simp)]
    exact ⟨_, rfl, rfl, rfl, rfl, rfl⟩
  · rcases hw with hw | hw
    · exact absurd hw hnil
    · rw [if_neg hnil, if_pos hw, if_neg (by simp)]
      exact ⟨_, rfl, rfl, rfl, rfl, rfl⟩

/-- Witness for C10 at a concrete input: a table holding one record is
emptied by the failing call. -/
theorem claim10_alloc_fail_discards_witness :
    ∃ st', ndz_reloc_get
        { reloc32 := true,
          relocdata := [{ rtype := 1, sector := 5, sectoff := 0, rsize := 4 }],
          relocentries := 1, reloclo := 5, relochi := 5 }
        COMPRESSED_V2 [{ rtype := 1, sector := 9, sectoff := 0, rsize := 4 }]
        false = some (st', -1) ∧
      st'.relocdata = [] ∧ st'.relocentries = 0 ∧
      st'.reloclo = 5 ∧ st'.relochi = 5 :=
  claim10_alloc_fail_discards
    { reloc32 := true,
      relocdata := [{ rtype := 1, sector := 5, sectoff := 0, rsize := 4 }],
      relocentries := 1, reloclo := 5, relochi := 5 }
    COMPRESSED_V2 [{ rtype := 1, sector := 9, sectoff := 0, rsize := 4 }]
    (by decide) (by decide) (by decide)

/-! ### Coverage lemmas for the delta walk -/

theorem covP_nil (x : Nat) : ¬ covP [] x := by
  simp [covP]

theorem covP_cons {r : Range} {l : List Range} {x : Nat} :
    covP (r :: l) x ↔ (r.start ≤ x ∧ x < r.start + r.size) ∨ covP l x := by
  unfold covP
  constructor
  · rintro ⟨a, ha, h1, h2⟩
    rcases List.mem_cons.mp ha with rfl | ha
    · exact Or.inl ⟨h1, h2⟩
    · exact Or.inr ⟨a, ha, h1, h2⟩
  · rintro (⟨h1, h2⟩ | ⟨a, ha, h1, h2⟩)
    · exact ⟨r, List.mem_cons_self r l, h1, h2⟩
    · exact ⟨a, List.mem_cons_of_mem r ha, h1, h2⟩

theorem covP_reverse (l : List Range) (x : Nat) : covP l.reverse x ↔ covP l x := by
  unfold covP
  simp [List.mem_reverse]

theorem covP_add_to_range (out : List Range) (s z x : Nat) :
    covP (add_to_range out s z) x ↔ covP out x ∨ (s ≤ x ∧ x < s + z) := by
  cases out with
  | nil =>
    rw [add_to_range, covP_cons]
    constructor
    · rintro (⟨h1, h2⟩ | hf)
      · exact Or.inr ⟨h1, h2⟩
      · exact absurd hf (covP_nil x)
    · rintro (hf | ⟨h1, h2⟩)
      · exact absurd hf (covP_nil x)
      · exact Or.inl ⟨h1, h2⟩
  | cons t rest =>
    rw [add_to_range]
    by_cases hco : t.start + t.size = s
    · rw [if_pos hco, covP_cons, covP_cons]
      constructor
      · rintro (⟨h1, h2⟩ | hr)
        · simp only [Range.start, Range.size] at h1 h2 ⊢
          by_cases hx : x < t.start + t.size
          · exact Or.inl (Or.inl ⟨h1, hx⟩)
          · exact Or.inr ⟨by omega, by omega⟩
        · exact Or.inl (Or.inr hr)
      · rintro ((⟨h1, h2⟩ | hr) | ⟨h1, h2⟩)
        · exact Or.inl ⟨h1, by simp only [Range.size]; omega⟩
        · exact Or.inr hr
        · exact Or.inl ⟨by simp only [Range.start]; omega, by simp only []; omega⟩
    · rw [if_neg hco, covP_cons, covP_cons]
      tauto

theorem covP_add_to_range_mono (out : List Range) (s z x : Nat) :
    covP out x → covP (add_to_range out s z) x := by
  intro hx
  exact (covP_add_to_range out s z x).mpr (Or.inl hx)

theorem WFRanges_cons {d : Range} {rest : List Range} :
    WFRanges (d :: rest) →
      WFRanges rest ∧ (∀ b ∈ rest, d.start + d.size ≤ b.start) ∧ 0 < d.size := by
  rintro ⟨hsz, hpw⟩
  rw [List.pairwise_cons] at hpw
  exact ⟨⟨fun r hr => hsz r (List.mem_cons_of_mem d hr), hpw.2⟩,
    hpw.1, hsz d (List.mem_cons_self d rest)⟩

theorem WFRanges_sublist {l1 l2 : List Range} (h : l1.Sublist l2) :
    WFRanges l2 → WFRanges l1 := by
  rintro ⟨hsz, hpw⟩
  exact ⟨fun r hr => hsz r (h.subset hr), hpw.sublist h⟩

/-- Coverage bookkeeping of the leading-drange drain: everything newly
emitted lies inside the drained dranges (all below `hstart`); no covered
sector is lost; the remaining cursor is a suffix whose head crosses
`hstart`. -/
theorem drainLoop_spec (env : DeltaEnv) (hstart : Nat) :
    ∀ (dr out : List Range) (nh : NHInfo) (out1 : List Range) (nh1 : NHInfo)
      (dr1 : List Range),
      drainLoop env dr hstart out nh = .ok (out1, nh1, dr1) →
      (∀ x, covP out1 x → covP out x ∨ (covP dr x ∧ x < hstart)) ∧
      (∀ x, covP dr x → covP out1 x ∨ covP dr1 x) ∧
      (∀ x, covP dr1 x → covP dr x) ∧
      (∀ x, covP out x → covP out1 x) ∧
      dr1.Sublist dr ∧
      (∀ d rest2, dr1 = d :: rest2 → hstart < d.start + d.size) := by
  intro dr
  induction dr with
  | nil =>
    intro out nh out1 nh1 dr1 hrun
    simp only [drainLoop, Except.ok.injEq, Prod.mk.injEq] at hrun
    obtain ⟨h1, _, h3⟩ := hrun
    subst h1
    subst h3
    refine ⟨fun x hx => Or.inl hx, fun x hx => absurd hx (covP_nil x),
      fun x hx => hx, fun x hx => hx, List.Sublist.refl _, ?_⟩
    intro d rest2 hd
    exact absurd hd (by simp)
  | cons d rest ih =>
    intro out nh out1 nh1 dr1 hrun
    simp only [drainLoop] at hrun
    by_cases hcond : d.start + d.size ≤ hstart
    · rw [if_pos hcond] at hrun
      have hrec : ∃ nh2, drainLoop env rest hstart
          (add_to_range out d.start d.size) nh2 = .ok (out1, nh1, dr1) := by
        by_cases hnf : env.newhashfile = true
        · rw [if_pos hnf] at hrun
          cases hadd : add_to_hashmapM env nh d.start d.size none with
          | error e =>
            rw [hadd] at hrun
            exact Except.noConfusion hrun
          | ok nh' =>
            rw [hadd] at hrun
            exact ⟨nh', hrun⟩
        · rw [if_neg hnf] at hrun
          exact ⟨nh, hrun⟩
      obtain ⟨nh2, hrec⟩ := hrec
      obtain ⟨i1, i2, i3, i4, i5, i6⟩ := ih _ _ _ _ _ hrec
      refine ⟨?_, ?_, ?_, ?_, i5.cons d, i6⟩
      · intro x hx
        rcases i1 x hx with hx' | ⟨hx', hlt⟩
        · rcases (covP_add_to_range out d.start d.size x).mp hx' with hx'' | ⟨ha, hb⟩
          · exact Or.inl hx''
          · exact Or.inr ⟨covP_cons.mpr (Or.inl ⟨ha, hb⟩), by omega⟩
        · exact Or.inr ⟨covP_cons.mpr (Or.inr hx'), hlt⟩
      · intro x hx
        rcases covP_cons.mp hx with ⟨ha, hb⟩ | hx'
        · exact Or.inl (i4 x ((covP_add_to_range out d.start d.size x).mpr
            (Or.inr ⟨ha, hb⟩)))
        · exact i2 x hx'
      · intro x hx
        exact covP_cons.mpr (Or.inr (i3 x hx))
      · intro x hx
        exact i4 x (covP_add_to_range_mono out d.start d.size x hx)
    · rw [if_neg hcond] at hrun
      simp only [Except.ok.injEq, Prod.mk.injEq] at hrun
      obtain ⟨h1, _, h3⟩ := hrun
      subst h1
      subst h3
      refine ⟨fun x hx => Or.inl hx, fun x hx => Or.inr hx, fun x hx => hx,
        fun x hx => hx, List.Sublist.refl _, ?_⟩
      intro d' rest2 hd
      have hd1 : d = d' := by
        injection hd
      rw [← hd1]
      omega

/-- Coverage of the conditional output emission inside the covered-drange
loop. -/
theorem covP_emit (changed : Nat) (out : List Range) (s z x : Nat) :
    covP (if changed ≠ 0 then add_to_range out s z else out) x ↔
      covP out x ∨ (changed ≠ 0 ∧ s ≤ x ∧ x < s + z) := by
  split
  · next hch =>
    rw [covP_add_to_range]
    constructor
    · rintro (hx | ⟨h1, h2⟩)
      · exact Or.inl hx
      · exact Or.inr ⟨hch, h1, h2⟩
    · rintro (hx | ⟨_, h1, h2⟩)
      · exact Or.inl hx
      · exact Or.inr ⟨h1, h2⟩
  · next hch =>
    constructor
    · exact Or.inl
    · rintro (hx | ⟨hc, _, _⟩)
      · exact hx
      · exact absurd hc hch

/-- Coverage bookkeeping of the covered-drange loop: newly emitted output
comes from the processed dranges; a covered sector is only dropped when
`changed = 0`, and then it lies inside the hash region; the surviving
cursor covers a subset; well-formedness is preserved. -/
theorem coveredLoop_spec (env : DeltaEnv) (h : HashRegion) (changed : Nat) :
    ∀ (dr out : List Range) (nh : NHInfo) (out1 : List Range) (nh1 : NHInfo)
      (dr1 : List Range),
      (∀ d ∈ dr, h.start ≤ d.start) →
      coveredLoop env h changed dr out nh = .ok (out1, nh1, dr1) →
      (∀ x, covP out1 x → covP out x ∨ covP dr x) ∧
      (∀ x, covP dr x → covP out1 x ∨ covP dr1 x ∨
        (changed = 0 ∧ h.start ≤ x ∧ x < h.start + h.size)) ∧
      (∀ x, covP dr1 x → covP dr x) ∧
      (∀ x, covP out x → covP out1 x) ∧
      (WFRanges dr → WFRanges dr1) := by
  intro dr
  induction dr with
  | nil =>
    intro out nh out1 nh1 dr1 hstart hrun
    simp only [coveredLoop, Except.ok.injEq, Prod.mk.injEq] at hrun
    obtain ⟨h1, _, h3⟩ := hrun
    subst h1
    subst h3
    exact ⟨fun x hx => Or.inl hx, fun x hx => absurd hx (covP_nil x),
      fun x hx => hx, fun x hx => hx, fun hwf => hwf⟩
  | cons d rest ih =>
    intro out nh out1 nh1 dr1 hstart hrun
    have hds : h.start ≤ d.start := hstart d (List.mem_cons_self d rest)
    simp only [coveredLoop] at hrun
    by_cases hlt : d.start < h.start + h.size
    case neg =>
      rw [if_neg hlt] at hrun
      simp only [Except.ok.injEq, Prod.mk.injEq] at hrun
      obtain ⟨h1, _, h3⟩ := hrun
      subst h1
      subst h3
      exact ⟨fun x hx => Or.inl hx, fun x hx => Or.inr (Or.inl hx),
        fun x hx => hx, fun x hx => hx, fun hwf => hwf⟩
    case pos =>
      rw [if_pos hlt] at hrun
      by_cases hsp : d.start + d.size > h.start + h.size
      · simp only [if_pos hsp] at hrun
        split at hrun
        · exact Except.noConfusion hrun
        · next nh' heq =>
          simp only [Except.ok.injEq, Prod.mk.injEq] at hrun
          obtain ⟨h1, _, h3⟩ := hrun
          subst h1
          subst h3
          refine ⟨?_, ?_, ?_, ?_, ?_⟩
          · intro x hx
            rcases (covP_emit changed out d.start (h.start + h.size - d.start) x).mp
                hx with hx' | ⟨_, hx1, hx2⟩
            · exact Or.inl hx'
            · exact Or.inr (covP_cons.mpr (Or.inl ⟨hx1, by omega⟩))
          · intro x hx
            rcases covP_cons.mp hx with ⟨hx1, hx2⟩ | hx'
            · by_cases hxlt : x < h.start + h.size
              · by_cases hch : changed = 0
                · exact Or.inr (Or.inr ⟨hch, by omega, hxlt⟩)
                · exact Or.inl
                    ((covP_emit changed out d.start (h.start + h.size - d.start)
                      x).mpr (Or.inr ⟨hch, hx1, by omega⟩))
              · refine Or.inr (Or.inl (covP_cons.mpr (Or.inl ⟨?_, ?_⟩))) <;>
                  simp only [Range.start, Range.size] <;> omega
            · exact Or.inr (Or.inl (covP_cons.mpr (Or.inr hx')))
          · intro x hx
            rcases covP_cons.mp hx with ⟨hx1, hx2⟩ | hx'
            · refine covP_cons.mpr (Or.inl ⟨?_, ?_⟩) <;>
                simp only [Range.start, Range.size] at hx1 hx2 ⊢ <;> omega
            · exact covP_cons.mpr (Or.inr hx')
          · intro x hx
            exact (covP_emit changed out d.start (h.start + h.size - d.start)
              x).mpr (Or.inl hx)
          · intro hwf
            obtain ⟨hwfr, hpw, hdsz⟩ := WFRanges_cons hwf
            refine ⟨?_, ?_⟩
            · intro r hr
              rcases List.mem_cons.mp hr with rfl | hr
              · simp only [Range.size]
                omega
              · exact hwfr.1 r hr
            · rw [List.pairwise_cons]
              refine ⟨?_, hwfr.2⟩
              intro b hb
              have := hpw b hb
              simp only [Range.start, Range.size]
              omega
      · simp only [if_neg hsp] at hrun
        split at hrun
        · exact Except.noConfusion hrun
        · next nh' heq =>
          obtain ⟨i1, i2, i3, i4, i5⟩ :=
            ih _ _ _ _ _ (fun d' hd' => hstart d' (List.mem_cons_of_mem d hd')) hrun
          refine ⟨?_, ?_, ?_, ?_, ?_⟩
          · intro x hx
            rcases i1 x hx with hx' | hx'
            · rcases (covP_emit changed out d.start (d.start + d.size - d.start)
                  x).mp hx' with hx'' | ⟨_, hx1, hx2⟩
              · exact Or.inl hx''
              · exact Or.inr (covP_cons.mpr (Or.inl ⟨hx1, by omega⟩))
            · exact Or.inr (covP_cons.mpr (Or.inr hx'))
          · intro x hx
            rcases covP_cons.mp hx with ⟨hx1, hx2⟩ | hx'
            · by_cases hch : changed = 0
              · exact Or.inr (Or.inr ⟨hch, by omega, by omega⟩)
              · exact Or.inl (i4 x ((covP_emit changed out d.start
                  (d.start + d.size - d.start) x).mpr (Or.inr ⟨hch, hx1, by omega⟩)))
            · exact i2 x hx'
          · intro x hx
            exact covP_cons.mpr (Or.inr (i3 x hx))
          · intro x hx
            exact i4 x ((covP_emit changed out d.start
              (d.start + d.size - d.start) x).mpr (Or.inl hx))
          · intro hwf
            exact i5 (WFRanges_cons hwf).1

/-- Coverage of the conditional head-split emission before the covered
loop. -/
theorem covP_headsplit (out1 : List Range) (d : Range) (hs x : Nat) :
    covP (if d.start < hs then add_to_range out1 d.start (hs - d.start) else out1) x ↔
      covP out1 x ∨ (d.start < hs ∧ d.start ≤ x ∧ x < hs) := by
  split
  · next hlt =>
    rw [covP_add_to_range]
    constructor
    · rintro (hx | ⟨h1, h2⟩)
      · exact Or.inl hx
      · exact Or.inr ⟨hlt, h1, by omega⟩
    · rintro (hx | ⟨_, h1, h2⟩)
      · exact Or.inl hx
      · exact Or.inr ⟨h1, by omega⟩
  · next hlt =>
    constructor
    · exact Or.inl
    · rintro (hx | ⟨hc, _, _⟩)
      · exact hx
      · exact absurd hc hlt

/-- Gluing one hreg iteration together: drain facts, head-split facts and
covered-loop facts compose into the per-step coverage contract. -/
theorem hregStep_assemble (env : DeltaEnv) (h : HashRegion)
    (dr out out1 : List Range) (d : Range) (rest : List Range)
    (out2 : List Range) (d2 : Range) (changed : Nat)
    (out4 dr4 : List Range)
    (hd1 : ∀ x, covP out1 x → covP out x ∨ (covP dr x ∧ x < h.start))
    (hd2 : ∀ x, covP dr x → covP out1 x ∨ covP (d :: rest) x)
    (hd3 : ∀ x, covP (d :: rest) x → covP dr x)
    (hd4 : ∀ x, covP out x → covP out1 x)
    (hdsub : (d :: rest).Sublist dr)
    (hdlast : h.start < d.start + d.size)
    (hout2 : ∀ x, covP out2 x ↔ covP out1 x ∨
      (d.start < h.start ∧ d.start ≤ x ∧ x < h.start))
    (hd2def : d2 = if d.start < h.start then
        ({ start := h.start, size := d.size - (h.start - d.start) } : Range) else d)
    (hch0 : changed = 0 → env.diskHash h.start h.size = h.hash)
    (hc1 : ∀ x, covP out4 x → covP out2 x ∨ covP (d2 :: rest) x)
    (hc2 : ∀ x, covP (d2 :: rest) x → covP out4 x ∨ covP dr4 x ∨
      (changed = 0 ∧ h.start ≤ x ∧ x < h.start + h.size))
    (hc3 : ∀ x, covP dr4 x → covP (d2 :: rest) x)
    (hc4 : ∀ x, covP out2 x → covP out4 x)
    (hc5 : WFRanges (d2 :: rest) → WFRanges dr4)
    (hwf : WFRanges dr) :
    (∀ x, covP out4 x → covP out x ∨ covP dr x) ∧
    (∀ x, covP dr x → covP out4 x ∨ covP dr4 x ∨
      (env.diskHash h.start h.size = h.hash ∧ h.start ≤ x ∧ x < h.start + h.size)) ∧
    (∀ x, covP dr4 x → covP dr x) ∧
    (∀ x, covP out x → covP out4 x) ∧
    WFRanges dr4 := by
  have hwf1 : WFRanges (d :: rest) := WFRanges_sublist hdsub hwf
  obtain ⟨hwfr, hpw, hdsz⟩ := WFRanges_cons hwf1
  have hcase : (d.start < h.start ∧ d2.start = h.start ∧
      d2.start + d2.size = d.start + d.size) ∨
      (h.start ≤ d.start ∧ d2 = d) := by
    rw [hd2def]
    split
    · next hlt =>
      left
      refine ⟨hlt, rfl, ?_⟩
      simp only [Range.start, Range.size]
      omega
    · next hlt =>
      right
      exact ⟨by omega, rfl⟩
  have hf1 : d2.start + d2.size = d.start + d.size := by
    rcases hcase with ⟨_, _, hf⟩ | ⟨_, hf⟩
    · exact hf
    · rw [hf]
  have hf2 : d.start ≤ d2.start := by
    rcases hcase with ⟨hlt, he, _⟩ | ⟨_, he⟩
    · omega
    · rw [he]
  have hf3 : h.start ≤ d2.start := by
    rcases hcase with ⟨_, he, _⟩ | ⟨hge, he⟩
    · omega
    · rw [he]
      exact hge
  have hf4 : 0 < d2.size := by
    rcases hcase with ⟨hlt, he, hf⟩ | ⟨_, he⟩
    · omega
    · rw [he]
      exact hdsz
  have hcovd2 : ∀ x, covP (d2 :: rest) x → covP (d :: rest) x := by
    intro x hx
    rcases covP_cons.mp hx with ⟨h1, h2⟩ | hx'
    · exact covP_cons.mpr (Or.inl ⟨by omega, by omega⟩)
    · exact covP_cons.mpr (Or.inr hx')
  have hcovd2x : ∀ x, covP (d :: rest) x → covP (d2 :: rest) x ∨ covP out2 x := by
    intro x hx
    rcases covP_cons.mp hx with ⟨h1, h2⟩ | hx'
    · rcases hcase with ⟨hlt, he, _⟩ | ⟨_, he⟩
      · by_cases hxlt : x < h.start
        · exact Or.inr ((hout2 x).mpr (Or.inr ⟨hlt, h1, hxlt⟩))
        · exact Or.inl (covP_cons.mpr (Or.inl ⟨by omega, by omega⟩))
      · rw [he]
        exact Or.inl (covP_cons.mpr (Or.inl ⟨h1, h2⟩))
    · exact Or.inl (covP_cons.mpr (Or.inr hx'))
  have hout2down : ∀ x, covP out2 x → covP out x ∨ covP dr x := by
    intro x hx
    rcases (hout2 x).mp hx with hx' | ⟨_, h1, h2⟩
    · rcases hd1 x hx' with hy | ⟨hy, _⟩
      · exact Or.inl hy
      · exact Or.inr hy
    · exact Or.inr (hd3 x (covP_cons.mpr (Or.inl ⟨h1, by omega⟩)))
  have hwf2 : WFRanges (d2 :: rest) := by
    refine ⟨?_, ?_⟩
    · intro rr hrr
      rcases List.mem_cons.mp hrr with rfl | hrr
      · exact hf4
      · exact hwfr.1 rr hrr
    · rw [List.pairwise_cons]
      refine ⟨?_, hwfr.2⟩
      intro b hb
      have := hpw b hb
      omega
  refine ⟨?_, ?_, ?_, ?_, hc5 hwf2⟩
  · intro x hx
    rcases hc1 x hx with hx' | hx'
    · exact hout2down x hx'
    · exact Or.inr (hd3 x (hcovd2 x hx'))
  · intro x hx
    rcases hd2 x hx with hx' | hx'
    · exact Or.inl (hc4 x ((hout2 x).mpr (Or.inl hx')))
    · rcases hcovd2x x hx' with hx2 | hx2
      · rcases hc2 x hx2 with hy | hy | ⟨hch, hy1, hy2⟩
        · exact Or.inl hy
        · exact Or.inr (Or.inl hy)
        · exact Or.inr (Or.inr ⟨hch0 hch, hy1, hy2⟩)
      · exact Or.inl (hc4 x hx2)
  · intro x hx
    exact hd3 x (hcovd2 x (hc3 x hx))
  · intro x hx
    exact hc4 x ((hout2 x).mpr (Or.inl (hd4 x hx)))

/-- Per-hreg coverage contract of the outer loop body: newly emitted output
comes from the dranges; a drange sector is only dropped when the hreg's
recomputed hash matched (and then it lies inside the hreg); cursor coverage
shrinks; well-formedness is preserved; the stop flag means the cursor is
exhausted. -/
theorem hregStep_spec (env : DeltaEnv) (h : HashRegion)
    (dr out : List Range) (nh : NHInfo) (r : StepRes)
    (hwf : WFRanges dr)
    (hrun : hregStep env h dr out nh = .ok r) :
    (∀ x, covP r.out x → covP out x ∨ covP dr x) ∧
    (∀ x, covP dr x → covP r.out x ∨ covP r.dr x ∨
      (env.diskHash h.start h.size = h.hash ∧ h.start ≤ x ∧ x < h.start + h.size)) ∧
    (∀ x, covP r.dr x → covP dr x) ∧
    (∀ x, covP out x → covP r.out x) ∧
    WFRanges r.dr ∧
    (r.stop = true → r.dr = []) := by
  simp only [hregStep] at hrun
  split at hrun
  · exact Except.noConfusion hrun
  · next out1 nh1 dr1 heqd =>
    obtain ⟨hd1, hd2, hd3, hd4, hd5, hd6⟩ :=
      drainLoop_spec env h.start dr out nh out1 nh1 dr1 heqd
    split at hrun
    · simp only [Except.ok.injEq] at hrun
      subst hrun
      refine ⟨?_, ?_, ?_, hd4, ?_, fun _ => rfl⟩
      · intro x hx
        rcases hd1 x hx with hy | ⟨hy, _⟩
        · exact Or.inl hy
        · exact Or.inr hy
      · intro x hx
        rcases hd2 x hx with hy | hy
        · exact Or.inl hy
        · exact absurd hy (covP_nil x)
      · intro x hx
        exact absurd hx (covP_nil x)
      · exact ⟨fun rr hrr => absurd hrr (by simp), List.Pairwise.nil⟩
    · next d rest =>
      by_cases hskip : h.start + h.size ≤ d.start
      · rw [if_pos hskip] at hrun
        simp only [Except.ok.injEq] at hrun
        subst hrun
        refine ⟨?_, ?_, hd3, hd4, WFRanges_sublist hd5 hwf, ?_⟩
        · intro x hx
          rcases hd1 x hx with hy | ⟨hy, _⟩
          · exact Or.inl hy
          · exact Or.inr hy
        · intro x hx
          rcases hd2 x hx with hy | hy
          · exact Or.inl hy
          · exact Or.inr (Or.inl hy)
        · intro hs
          simp at hs
      · rw [if_neg hskip] at hrun
        have hdlast : h.start < d.start + d.size := hd6 d rest rfl
        obtain ⟨hwfr, hpwr, hdszr⟩ := WFRanges_cons (WFRanges_sublist hd5 hwf)
        split at hrun
        · exact Except.noConfusion hrun
        · next nh2 heq2 =>
          split at hrun
          · next hhs =>
            have hout2 : ∀ x,
                covP (add_to_range out1 d.start (h.start - d.start)) x ↔
                  covP out1 x ∨ (d.start < h.start ∧ d.start ≤ x ∧ x < h.start) := by
              intro x
              rw [covP_add_to_range]
              constructor
              · rintro (hx | ⟨h1, h2⟩)
                · exact Or.inl hx
                · exact Or.inr ⟨hhs, h1, by omega⟩
              · rintro (hx | ⟨_, h1, h2⟩)
                · exact Or.inl hx
                · exact Or.inr ⟨h1, by omega⟩
            have hd2eq :
                ({ start := h.start, size := d.size - (h.start - d.start) } : Range) =
                  if d.start < h.start then
                    ({ start := h.start, size := d.size - (h.start - d.start) } : Range)
                  else d := (if_pos hhs).symm
            have hstartle : ∀ d' ∈
                (({ start := h.start, size := d.size - (h.start - d.start) } : Range)
                  :: rest), h.start ≤ d'.start := by
              intro d' hd'
              rcases List.mem_cons.mp hd' with rfl | hd'
              · exact le_refl _
              · have := hpwr d' hd'
                omega
            split at hrun
            · next hcond =>
              split at hrun
              · next hfixT =>
                split at hrun
                · exact Except.noConfusion hrun
                · next out4 nh4 dr4 heq4 =>
                  simp only [Except.ok.injEq] at hrun
                  subst hrun
                  obtain ⟨hc1, hc2, hc3, hc4, hc5⟩ :=
                    coveredLoop_spec env h 3 _ _ _ _ _ _ hstartle heq4
                  obtain ⟨a1, a2, a3, a4, a5⟩ :=
                    hregStep_assemble env h dr out out1 d rest _ _ 3 out4 dr4
                      hd1 hd2 hd3 hd4 hd5 hdlast hout2 hd2eq
                      (fun hc => absurd hc (by decide)) hc1 hc2 hc3 hc4 hc5 hwf
                  refine ⟨a1, a2, a3, a4, a5, ?_⟩
                  intro hs
                  cases dr4 with
                  | nil => rfl
                  | cons a l => simp [List.isEmpty] at hs
              · next hfixF =>
                split at hrun
                · exact Except.noConfusion hrun
                · next changed fresh heqc =>
                  split at hrun
                  · exact Except.noConfusion hrun
                  · next nh3 heq3 =>
                    split at hrun
                    · exact Except.noConfusion hrun
                    · next out4 nh4 dr4 heq4 =>
                      simp only [Except.ok.injEq] at hrun
                      subst hrun
                      have hch0 : changed = 0 →
                          env.diskHash h.start h.size = h.hash := by
                        unfold hash_and_cmpM at heqc
                        split at heqc
                        · exact Except.noConfusion heqc
                        · simp only [Except.ok.injEq, Prod.mk.injEq] at heqc
                          obtain ⟨hceq, hfeq⟩ := heqc
                          intro h0
                          rw [← hceq] at h0
                          by_cases hdh : env.diskHash h.start h.size = h.hash
                          · exact hdh
                          · rw [if_neg hdh] at h0
                            exact absurd h0 (by decide)
                      obtain ⟨hc1, hc2, hc3, hc4, hc5⟩ :=
                        coveredLoop_spec env h changed _ _ _ _ _ _ hstartle heq4
                      obtain ⟨a1, a2, a3, a4, a5⟩ :=
                        hregStep_assemble env h dr out out1 d rest _ _ changed
                          out4 dr4 hd1 hd2 hd3 hd4 hd5 hdlast hout2 hd2eq
                          hch0 hc1 hc2 hc3 hc4 hc5 hwf
                      refine ⟨a1, a2, a3, a4, a5, ?_⟩
                      intro hs
                      cases dr4 with
                      | nil => rfl
                      | cons a l => simp [List.isEmpty] at hs
            · next hcond =>
              split at hrun
              · exact Except.noConfusion hrun
              · next out4 nh4 dr4 heq4 =>
                simp only [Except.ok.injEq] at hrun
                subst hrun
                obtain ⟨hc1, hc2, hc3, hc4, hc5⟩ :=
                  coveredLoop_spec env h 2 _ _ _ _ _ _ hstartle heq4
                obtain ⟨a1, a2, a3, a4, a5⟩ :=
                  hregStep_assemble env h dr out out1 d rest _ _ 2 out4 dr4
                    hd1 hd2 hd3 hd4 hd5 hdlast hout2 hd2eq
                    (fun hc => absurd hc (by decide)) hc1 hc2 hc3 hc4 hc5 hwf
                refine ⟨a1, a2, a3, a4, a5, ?_⟩
                intro hs
                cases dr4 with
                | nil => rfl
                | cons a l => simp [List.isEmpty] at hs
          · next hhs =>
            have hout2 : ∀ x, covP out1 x ↔
                covP out1 x ∨ (d.start < h.start ∧ d.start ≤ x ∧ x < h.start) := by
              intro x
              constructor
              · exact Or.inl
              · rintro (hx | ⟨hc, _, _⟩)
                · exact hx
                · exact absurd hc hhs
            have hd2eq : d = if d.start < h.start then
                ({ start := h.start, size := d.size - (h.start - d.start) } : Range)
              else d := (if_neg hhs).symm
            have hstartle : ∀ d' ∈ (d :: rest), h.start ≤ d'.start := by
              intro d' hd'
              rcases List.mem_cons.mp hd' with rfl | hd'
              · omega
              · have := hpwr d' hd'
                omega
            split at hrun
            · next hcond =>
              split at hrun
              · next hfixT =>
                split at hrun
                · exact Except.noConfusion hrun
                · next out4 nh4 dr4 heq4 =>
                  simp only [Except.ok.injEq] at hrun
                  subst hrun
                  obtain ⟨hc1, hc2, hc3, hc4, hc5⟩ :=
                    coveredLoop_spec env h 3 _ _ _ _ _ _ hstartle heq4
                  obtain ⟨a1, a2, a3, a4, a5⟩ :=
                    hregStep_assemble env h dr out out1 d rest _ _ 3 out4 dr4
                      hd1 hd2 hd3 hd4 hd5 hdlast hout2 hd2eq
                      (fun hc => absurd hc (by decide)) hc1 hc2 hc3 hc4 hc5 hwf
                  refine ⟨a1, a2, a3, a4, a5, ?_⟩
                  intro hs
                  cases dr4 with
                  | nil => rfl
                  | cons a l => simp [List.isEmpty] at hs
              · next hfixF =>
                split at hrun
                · exact Except.noConfusion hrun
                · next changed fresh heqc =>
                  split at hrun
                  · exact Except.noConfusion hrun
                  · next nh3 heq3 =>
                    split at hrun
                    · exact Except.noConfusion hrun
                    · next out4 nh4 dr4 heq4 =>
                      simp only [Except.ok.injEq] at hrun
                      subst hrun
                      have hch0 : changed = 0 →
                          env.diskHash h.start h.size = h.hash := by
                        unfold hash_and_cmpM at heqc
                        split at heqc
                        · exact Except.noConfusion heqc
                        · simp only [Except.ok.injEq, Prod.mk.injEq] at heqc
                          obtain ⟨hceq, hfeq⟩ := heqc
                          intro h0
                          rw [← hceq] at h0
                          by_cases hdh : env.diskHash h.start h.size = h.hash
                          · exact hdh
                          · rw [if_neg hdh] at h0
                            exact absurd h0 (by decide)
                      obtain ⟨hc1, hc2, hc3, hc4, hc5⟩ :=
                        coveredLoop_spec env h changed _ _ _ _ _ _ hstartle heq4
                      obtain ⟨a1, a2, a3, a4, a5⟩ :=
                        hregStep_assemble env h dr out out1 d rest _ _ changed
                          out4 dr4 hd1 hd2 hd3 hd4 hd5 hdlast hout2 hd2eq
                          hch0 hc1 hc2 hc3 hc4 hc5 hwf
                      refine ⟨a1, a2, a3, a4, a5, ?_⟩
                      intro hs
                      cases dr4 with
                      | nil => rfl
                      | cons a l => simp [List.isEmpty] at hs
            · next hcond =>
              split at hrun
              · exact Except.noConfusion hrun
              · next out4 nh4 dr4 heq4 =>
                simp only [Except.ok.injEq] at hrun
                subst hrun
                obtain ⟨hc1, hc2, hc3, hc4, hc5⟩ :=
                  coveredLoop_spec env h 2 _ _ _ _ _ _ hstartle heq4
                obtain ⟨a1, a2, a3, a4, a5⟩ :=
                  hregStep_assemble env h dr out out1 d rest _ _ 2 out4 dr4
                    hd1 hd2 hd3 hd4 hd5 hdlast hout2 hd2eq
                    (fun hc => absurd hc (by decide)) hc1 hc2 hc3 hc4 hc5 hwf
                refine ⟨a1, a2, a3, a4, a5, ?_⟩
                intro hs
                cases dr4 with
                | nil => rfl
                | cons a l => simp [List.isEmpty] at hs

/-- Coverage of the trailing-drange loop: the final output covers exactly
the old output plus the remaining dranges. -/
theorem trailingLoop_spec (env : DeltaEnv) :
    ∀ (dr out : List Range) (nh : NHInfo) (out1 : List Range) (nh1 : NHInfo),
      trailingLoop env dr out nh = .ok (out1, nh1) →
      (∀ x, covP out1 x → covP out x ∨ covP dr x) ∧
      (∀ x, covP dr x → covP out1 x) ∧
      (∀ x, covP out x → covP out1 x) := by
  intro dr
  induction dr with
  | nil =>
    intro out nh out1 nh1 hrun
    simp only [trailingLoop, Except.ok.injEq, Prod.mk.injEq] at hrun
    obtain ⟨h1, _⟩ := hrun
    subst h1
    exact ⟨fun x hx => Or.inl hx, fun x hx => absurd hx (covP_nil x), fun x hx => hx⟩
  | cons d rest ih =>
    intro out nh out1 nh1 hrun
    simp only [trailingLoop] at hrun
    have hrec : ∃ nh2, trailingLoop env rest
        (add_to_range out d.start d.size) nh2 = .ok (out1, nh1) := by
      by_cases hnf : env.newhashfile = true
      · rw [if_pos hnf] at hrun
        cases hadd : add_to_hashmapM env nh d.start d.size none with
        | error e =>
          rw [hadd] at hrun
          exact Except.noConfusion hrun
        | ok nh' =>
          rw [hadd] at hrun
          exact ⟨nh', hrun⟩
      · rw [if_neg hnf] at hrun
        exact ⟨nh, hrun⟩
    obtain ⟨nh2, hrec⟩ := hrec
    obtain ⟨i1, i2, i3⟩ := ih _ _ _ _ hrec
    refine ⟨?_, ?_, ?_⟩
    · intro x hx
      rcases i1 x hx with hx' | hx'
      · rcases (covP_add_to_range out d.start d.size x).mp hx' with hx'' | ⟨h1, h2⟩
        · exact Or.inl hx''
        · exact Or.inr (covP_cons.mpr (Or.inl ⟨h1, h2⟩))
      · exact Or.inr (covP_cons.mpr (Or.inr hx'))
    · intro x hx
      rcases covP_cons.mp hx with ⟨h1, h2⟩ | hx'
      · exact i3 x ((covP_add_to_range out d.start d.size x).mpr (Or.inr ⟨h1, h2⟩))
      · exact i2 x hx'
    · intro x hx
      exact i3 x (covP_add_to_range_mono out d.start d.size x hx)

/-- Coverage contract of the whole walk: the final output covers a subset
of the incoming dranges; every incoming drange sector is either in the
final output or inside a hash region whose recomputed hash matched; output
coverage only grows. -/
theorem hregLoop_spec (env : DeltaEnv) :
    ∀ (hregs : List HashRegion) (dr out : List Range) (nh : NHInfo)
      (out1 : List Range) (nh1 : NHInfo),
      WFRanges dr →
      hregLoop env hregs dr out nh = .ok (out1, nh1) →
      (∀ x, covP out1 x → covP out x ∨ covP dr x) ∧
      (∀ x, covP dr x → covP out1 x ∨ matchedCov env hregs x) ∧
      (∀ x, covP out x → covP out1 x) := by
  intro hregs
  induction hregs with
  | nil =>
    intro dr out nh out1 nh1 _ hrun
    simp only [hregLoop] at hrun
    obtain ⟨i1, i2, i3⟩ := trailingLoop_spec env dr out nh out1 nh1 hrun
    exact ⟨i1, fun x hx => Or.inl (i2 x hx), i3⟩
  | cons h hs ih =>
    intro dr out nh out1 nh1 hwf hrun
    simp only [hregLoop] at hrun
    split at hrun
    · exact Except.noConfusion hrun
    · next r hstep =>
      obtain ⟨s1, s2, s3, s4, s5, s6⟩ := hregStep_spec env h dr out nh r hwf hstep
      by_cases hstop : r.stop = true
      · rw [if_pos hstop] at hrun
        simp only [Except.ok.injEq, Prod.mk.injEq] at hrun
        obtain ⟨h1, _⟩ := hrun
        subst h1
        refine ⟨?_, ?_, s4⟩
        · intro x hx
          exact s1 x hx
        · intro x hx
          rcases s2 x hx with hy | hy | ⟨hm, hy1, hy2⟩
          · exact Or.inl hy
          · rw [s6 hstop] at hy
            exact absurd hy (covP_nil x)
          · exact Or.inr ⟨h, List.mem_cons_self h hs, hm, hy1, hy2⟩
      · rw [if_neg hstop] at hrun
        obtain ⟨i1, i2, i3⟩ := ih r.dr r.out r.nh out1 nh1 s5 hrun
        refine ⟨?_, ?_, ?_⟩
        · intro x hx
          rcases i1 x hx with hy | hy
          · exact s1 x hy
          · exact Or.inr (s3 x hy)
        · intro x hx
          rcases s2 x hx with hy | hy | ⟨hm, hy1, hy2⟩
          · exact Or.inl (i3 x hy)
          · rcases i2 x hy with hz | ⟨h', hh', hm', hz1, hz2⟩
            · exact Or.inl hz
            · exact Or.inr ⟨h', List.mem_cons_of_mem h hh', hm', hz1, hz2⟩
          · exact Or.inr ⟨h, List.mem_cons_self h hs, hm, hy1, hy2⟩
        · intro x hx
          exact i3 x (s4 x hx)

/-- Claim C1 counterexample: with `hash_free` on, current ranges
`[(0,30), (60,40)]` and a single matching hash region `(0,100)`, the delta
succeeds with an empty output; sector 35 is covered by the matched hash
region (hence by the union) but is NOT an allocated sector of `curranges`,
so the union does not EQUAL the coverage of `curranges`. -/
theorem claim1_counterexample :
    (hashmap_compute_delta envGap [⟨0, 30⟩, ⟨60, 40⟩] [⟨0, 100, 100⟩]).ret = 0 ∧
    matchedCov envGap [⟨0, 100, 100⟩] 35 ∧
    ¬ covP ((hashmap_compute_delta envGap [⟨0, 30⟩, ⟨60, 40⟩]
        [⟨0, 100, 100⟩]).nranges) 35 ∧
    ¬ covP [(⟨0, 30⟩ : Range), ⟨60, 40⟩] 35 := by
  decide

/-- Claim C1 (amended): on success the union of the delta output's coverage
with the coverage of the hash regions whose recomputed hash matches their
stored hash CONTAINS the coverage of `curranges` (it may strictly exceed it
when a matched hash region covers sectors free in the current image):
every sector of `curranges` is either in the delta output or covered by a
matching hash region, and conversely every delta-output sector lies in
`curranges`. -/
theorem claim1_delta_coverage (env : DeltaEnv) (curranges : List Range)
    (hregs : List HashRegion) (hwf : WFRanges curranges)
    (hok : (hashmap_compute_delta env curranges hregs).ret = 0) :
    ∀ x, (covP curranges x →
        covP (hashmap_compute_delta env curranges hregs).nranges x ∨
          matchedCov env hregs x) ∧
      (covP (hashmap_compute_delta env curranges hregs).nranges x →
        covP curranges x) := by
  cases hrun : hregLoop env hregs curranges [] none with
  | error e =>
    have : (hashmap_compute_delta env curranges hregs).ret = -1 := by
      unfold hashmap_compute_delta
      rw [hrun]
    rw [this] at hok
    exact absurd hok (by decide)
  | ok p =>
    obtain ⟨out, nh⟩ := p
    have hres : (hashmap_compute_delta env curranges hregs).nranges = out.reverse := by
      unfold hashmap_compute_delta
      rw [hrun]
    obtain ⟨l1, l2, l3⟩ :=
      hregLoop_spec env hregs curranges [] none out nh hwf hrun
    intro x
    rw [hres]
    constructor
    · intro hc
      rcases l2 x hc with hy | hy
      · exact Or.inl ((covP_reverse out x).mpr hy)
      · exact Or.inr hy
    · intro ho
      rcases l1 x ((covP_reverse out x).mp ho) with hy | hy
      · exact absurd hy (covP_nil x)
      · exact hy

/-- Witness for C1 on the gap scenario, evaluated at sector 65. -/
theorem claim1_delta_coverage_witness :
    (covP [(⟨0, 30⟩ : Range), ⟨60, 40⟩] 65 →
        covP (hashmap_compute_delta envGap [⟨0, 30⟩, ⟨60, 40⟩]
          [⟨0, 100, 100⟩]).nranges 65 ∨
          matchedCov envGap [⟨0, 100, 100⟩] 65) ∧
    (covP (hashmap_compute_delta envGap [⟨0, 30⟩, ⟨60, 40⟩]
        [⟨0, 100, 100⟩]).nranges 65 →
      covP [(⟨0, 30⟩ : Range), ⟨60, 40⟩] 65) :=
  claim1_delta_coverage envGap [⟨0, 30⟩, ⟨60, 40⟩] [⟨0, 100, 100⟩]
    (by decide) (by decide) 65

/-- Claim C4: whenever `hashmap_compute_delta` fails partway through the
walk (every injected failure point propagates to the single error path),
it returns -1 carrying no partial output and no partial signature, after
running the error-path fixup rollback `restorefixups(0)` (exactly when the
fixups were saved, i.e. when a new hash file was requested), freeing the
partially built signature buffer exactly when one had been allocated, and
freeing the partial output range list; on success the fixups are instead
commit-restored and nothing is freed.  The caller's `curranges` and the
input hash regions are read-only throughout the walk (the model's cursor
works on copies, mirroring the C `COPYRANGE` discipline). -/
theorem claim4_error_cleanup (env : DeltaEnv) (curranges : List Range)
    (hregs : List HashRegion)
    (herr : (hashmap_compute_delta env curranges hregs).ret = -1) :
    (hashmap_compute_delta env curranges hregs).nranges = [] ∧
    (hashmap_compute_delta env curranges hregs).nhinfo = none ∧
    ∃ b : Bool, (hashmap_compute_delta env curranges hregs).events =
      (if env.newhashfile then [FixEvent.save] else []) ++
      (if env.newhashfile then [FixEvent.restore false] else []) ++
      (if b then [FixEvent.freeNH] else []) ++ [FixEvent.freeRanges] := by
  cases hrun : hregLoop env hregs curranges [] none with
  | ok p =>
    obtain ⟨out, nh⟩ := p
    have : (hashmap_compute_delta env curranges hregs).ret = 0 := by
      unfold hashmap_compute_delta
      rw [hrun]
    rw [this] at herr
    exact absurd herr (by decide)
  | error e =>
    have hres : hashmap_compute_delta env curranges hregs =
        { ret := -1, nranges := [], nhinfo := none,
          events := (if env.newhashfile then [FixEvent.save] else []) ++
            (if env.newhashfile then [FixEvent.restore false] else []) ++
            (if e.isSome then [FixEvent.freeNH] else []) ++ [FixEvent.freeRanges] } := by
      unfold hashmap_compute_delta
      rw [hrun]
    rw [hres]
    exact ⟨rfl, rfl, e.isSome, rfl⟩

/-- Witness for C4: a read failure while hashing the only hash region makes
the walk fail; the result carries the rollback/free event sequence. -/
theorem claim4_error_cleanup_witness :
    (hashmap_compute_delta envErr [⟨100, 10⟩] [⟨100, 10, 999⟩]).nranges = [] ∧
    (hashmap_compute_delta envErr [⟨100, 10⟩] [⟨100, 10, 999⟩]).nhinfo = none ∧
    ∃ b : Bool, (hashmap_compute_delta envErr [⟨100, 10⟩] [⟨100, 10, 999⟩]).events =
      (if envErr.newhashfile then [FixEvent.save] else []) ++
      (if envErr.newhashfile then [FixEvent.restore false] else []) ++
      (if b then [FixEvent.freeNH] else []) ++ [FixEvent.freeRanges] :=
  claim4_error_cleanup envErr [⟨100, 10⟩] [⟨100, 10, 999⟩] (by decide)

/-- Each split piece stays within the range being split. -/
theorem add_to_hashmap_pieces_bounds :
    ∀ (fuel blk s z off : Nat), ∀ p ∈ add_to_hashmap_pieces fuel blk s z off,
      s ≤ p.1 ∧ p.1 + p.2 ≤ s + z := by
  intro fuel
  induction fuel with
  | zero =>
    intro blk s z off p hp
    simp [add_to_hashmap_pieces] at hp
  | succ f ih =>
    intro blk s z off p hp
    match z, hp with
    | 0, hp => simp [add_to_hashmap_pieces] at hp
    | k + 1, hp =>
      simp only [add_to_hashmap_pieces] at hp
      have hle : add_to_hashmap_hsize blk off (k + 1) ≤ k + 1 := by
        unfold add_to_hashmap_hsize
        split
        · exact min_le_right _ _
        · split <;> omega
      rcases List.mem_cons.mp hp with rfl | hp
      · exact ⟨le_refl _, by omega⟩
      · obtain ⟨h1, h2⟩ := ih blk (s + add_to_hashmap_hsize blk off (k + 1))
          (k + 1 - add_to_hashmap_hsize blk off (k + 1)) 0 p hp
        exact ⟨by omega, by omega⟩

/-- A successful `add_to_hashmap_go` appends entries mirroring the pieces. -/
theorem add_to_hashmap_go_append (env : DeltaEnv) (rhash : Option Nat) :
    ∀ (ps : List (Nat × Nat)) (nh nh1 : NHInfo),
      add_to_hashmap_go env rhash ps nh = .ok nh1 →
      ∃ pre, nh1.getD [] = nh.getD [] ++ pre ∧
        ∀ e ∈ pre, ∃ p ∈ ps, e.start = p.1 ∧ e.size = p.2 := by
  intro ps
  induction ps with
  | nil =>
    intro nh nh1 hrun
    simp only [add_to_hashmap_go, Except.ok.injEq] at hrun
    subst hrun
    exact ⟨[], by simp, by simp⟩
  | cons p ps ih =>
    intro nh nh1 hrun
    obtain ⟨s, z⟩ := p
    simp only [add_to_hashmap_go] at hrun
    have hstep : ∃ hh, add_to_hashmap_go env rhash ps (addhash nh s z hh) = .ok nh1 := by
      cases rhash with
      | some hh => exact ⟨hh, hrun⟩
      | none =>
        by_cases hrf : env.readFail s z = true
        · rw [if_pos hrf] at hrun
          exact Except.noConfusion hrun
        · rw [if_neg hrf] at hrun
          exact ⟨env.diskHash s z, hrun⟩
    obtain ⟨hh, hstep⟩ := hstep
    obtain ⟨pre, hpre, hmem⟩ := ih _ _ hstep
    refine ⟨⟨s, z, hh⟩ :: pre, ?_, ?_⟩
    · rw [hpre]
      simp [addhash]
    · intro e he
      rcases List.mem_cons.mp he with rfl | he
      · exact ⟨(s, z), List.mem_cons_self _ _, rfl, rfl⟩
      · obtain ⟨q, hq, he1, he2⟩ := hmem e he
        exact ⟨q, List.mem_cons_of_mem _ hq, he1, he2⟩

/-- A successful `add_to_hashmap` appends entries lying inside the given
range. -/
theorem add_to_hashmapM_ok_bounds (env : DeltaEnv) (nh : NHInfo)
    (rstart rsize : Nat) (rhash : Option Nat) (nh1 : NHInfo)
    (hrun : add_to_hashmapM env nh rstart rsize rhash = .ok nh1) :
    ∃ pre, nh1.getD [] = nh.getD [] ++ pre ∧
      ∀ e ∈ pre, rstart ≤ e.start ∧ e.start + e.size ≤ rstart + rsize := by
  obtain ⟨pre, hpre, hmem⟩ := add_to_hashmap_go_append env rhash _ _ _ hrun
  refine ⟨pre, hpre, ?_⟩
  intro e he
  obtain ⟨q, hq, he1, he2⟩ := hmem e he
  obtain ⟨hb1, hb2⟩ := add_to_hashmap_pieces_bounds rsize env.hashblksize rstart
    rsize ((rstart - env.poffset) % env.hashblksize) q hq
  rw [he1, he2]
  exact ⟨hb1, hb2⟩

/-- The drain phase only adds hash entries that end at or before the
hreg's start. -/
theorem drainLoop_nh_spec (env : DeltaEnv) (hstart : Nat) :
    ∀ (dr out : List Range) (nh : NHInfo) (out1 : List Range) (nh1 : NHInfo)
      (dr1 : List Range),
      drainLoop env dr hstart out nh = .ok (out1, nh1, dr1) →
      ∃ pre, nh1.getD [] = nh.getD [] ++ pre ∧
        ∀ e ∈ pre, e.start + e.size ≤ hstart := by
  intro dr
  induction dr with
  | nil =>
    intro out nh out1 nh1 dr1 hrun
    simp only [drainLoop, Except.ok.injEq, Prod.mk.injEq] at hrun
    obtain ⟨_, h2, _⟩ := hrun
    subst h2
    exact ⟨[], by simp, by simp⟩
  | cons d rest ih =>
    intro out nh out1 nh1 dr1 hrun
    simp only [drainLoop] at hrun
    by_cases hcond : d.start + d.size ≤ hstart
    · rw [if_pos hcond] at hrun
      by_cases hnf : env.newhashfile = true
      · rw [if_pos hnf] at hrun
        cases hadd : add_to_hashmapM env nh d.start d.size none with
        | error e =>
          rw [hadd] at hrun
          exact Except.noConfusion hrun
        | ok nh' =>
          rw [hadd] at hrun
          obtain ⟨preA, hpreA, hmemA⟩ :=
            add_to_hashmapM_ok_bounds env nh d.start d.size none nh' hadd
          obtain ⟨preB, hpreB, hmemB⟩ := ih _ _ _ _ _ hrun
          refine ⟨preA ++ preB, ?_, ?_⟩
          · rw [hpreB, hpreA, List.append_assoc]
          · intro e he
            rcases List.mem_append.mp he with he | he
            · have := hmemA e he
              omega
            · exact hmemB e he
      · rw [if_neg hnf] at hrun
        exact ih _ _ _ _ _ hrun
    · rw [if_neg hcond] at hrun
      simp only [Except.ok.injEq, Prod.mk.injEq] at hrun
      obtain ⟨_, h2, _⟩ := hrun
      subst h2
      exact ⟨[], by simp, by simp⟩

/-- A range that does not cross a hash-block boundary yields a single
piece. -/
theorem add_to_hashmap_split_single (blk po s z : Nat) (hz : 0 < z)
    (hfit : (s - po) % blk + z ≤ blk) :
    add_to_hashmap_split blk po s z = [(s, z)] := by
  unfold add_to_hashmap_split
  match z, hz with
  | k + 1, _ =>
    simp only [add_to_hashmap_pieces]
    have hs : add_to_hashmap_hsize blk ((s - po) % blk) (k + 1) = k + 1 := by
      unfold add_to_hashmap_hsize
      split
      · omega
      · next hz0 =>
        split <;> omega
    rw [hs, show k + 1 - (k + 1) = 0 from by omega, add_to_hashmap_pieces_zero]

/-- With a caller-provided hash and a boundary-fitting range,
`add_to_hashmap` appends exactly one whole-range entry. -/
theorem add_to_hashmapM_some_single (env : DeltaEnv) (nh : NHInfo)
    (s z hh : Nat) (hz : 0 < z)
    (hfit : (s - env.poffset) % env.hashblksize + z ≤ env.hashblksize) :
    add_to_hashmapM env nh s z (some hh) = .ok (some (nh.getD [] ++ [⟨s, z, hh⟩])) := by
  unfold add_to_hashmapM
  rw [add_to_hashmap_split_single env.hashblksize env.poffset s z hz hfit]
  simp [add_to_hashmap_go, addhash]

/-- With `changed = 0` the covered loop emits nothing and adds no hash
entries. -/
theorem coveredLoop_changed0 (env : DeltaEnv) (h : HashRegion) :
    ∀ (dr out : List Range) (nh : NHInfo),
      ∃ dr', coveredLoop env h 0 dr out nh = .ok (out, nh, dr') := by
  intro dr
  induction dr with
  | nil =>
    intro out nh
    exact ⟨[], rfl⟩
  | cons d rest ih =>
    intro out nh
    simp only [coveredLoop]
    by_cases hlt : d.start < h.start + h.size
    · rw [if_pos hlt]
      rw [if_neg (show ¬((0 : Nat) ≠ 0) from by decide)]
      rw [if_neg (show ¬((0 : Nat) > 1 ∧ env.newhashfile = true) from
        fun hc => absurd hc.1 (by decide))]
      by_cases hsp : d.start + d.size > h.start + h.size
      · refine ⟨(⟨h.start + h.size, d.start + d.size - (h.start + h.size)⟩ : Range)
          :: rest, ?_⟩
        simp only [if_pos hsp]
      · obtain ⟨dr', hdr'⟩ := ih out nh
        refine ⟨dr', ?_⟩
        simp only [if_neg hsp]
        exact hdr'
    · rw [if_neg hlt]
      exact ⟨d :: rest, rfl⟩

/-- Claim C2 counterexample: with hash-block size 10, the matching hash
region `(5, 10)` crosses a block boundary; the step adds TWO hash entries
`(5,5)` and `(10,5)` (each with the freshly computed whole-hreg hash 15),
and no single entry covering the entire hreg, contradicting "exactly one
hash entry covering the entire hash region is added". -/
theorem claim2_counterexample :
    hregStep envCross ⟨5, 10, 15⟩ [⟨5, 10⟩] [] none =
      .ok ⟨[], some [⟨5, 5, 15⟩, ⟨10, 5, 15⟩], [], true⟩ ∧
    (∀ e ∈ [(⟨5, 5, 15⟩ : HashRegion), ⟨10, 5, 15⟩], ¬(e.start = 5 ∧ e.size = 10)) := by
  decide

/-- Claim C2 (amended): during the delta walk, when the recomputed hash of
a hash region equals its stored hash, none of the dranges covered by that
hash region are emitted to the output (every newly emitted sector lies
below the hreg's start), and — when a new signature was requested and the
hreg does not cross a `hashblksize` boundary relative to the partition
base (true of every writer-produced signature) — exactly one hash entry
covering the entire hreg, bearing the freshly computed hash, is appended
to the new signature, not one entry per covered drange. -/
theorem claim2_matched_hreg (env : DeltaEnv) (h : HashRegion)
    (dr out : List Range) (nh : NHInfo)
    (out1 : List Range) (nh1 : NHInfo) (d : Range) (rest : List Range)
    (r : StepRes)
    (hnew : env.newhashfile = true)
    (hhf : env.hash_free = true)
    (hfix : env.hasfixup h.start h.size = false)
    (hrf : env.readFail h.start h.size = false)
    (hmatch : env.diskHash h.start h.size = h.hash)
    (hfit : (h.start - env.poffset) % env.hashblksize + h.size ≤ env.hashblksize)
    (hsz : 0 < h.size)
    (hdrain : drainLoop env dr h.start out nh = .ok (out1, nh1, d :: rest))
    (hov : d.start < h.start + h.size)
    (hsc : hregStep env h dr out nh = .ok r) :
    (∀ x, covP r.out x → covP out x ∨ x < h.start) ∧
    (∃ pre, r.nh.getD [] = nh.getD [] ++ pre ++ [⟨h.start, h.size, h.hash⟩] ∧
      ∀ e ∈ pre, e.start + e.size ≤ h.start) := by
  obtain ⟨hd1, _, _, _, _, _⟩ :=
    drainLoop_spec env h.start dr out nh out1 nh1 (d :: rest) hdrain
  obtain ⟨preD, hpreD, hmemD⟩ :=
    drainLoop_nh_spec env h.start dr out nh out1 nh1 (d :: rest) hdrain
  have hcmp : hash_and_cmpM env h = .ok (0, h.hash) := by
    simp [hash_and_cmpM, hrf, hmatch]
  simp only [hregStep] at hsc
  rw [hdrain] at hsc
  simp only [] at hsc
  rw [if_neg (show ¬(h.start + h.size ≤ d.start) from by omega)] at hsc
  by_cases hhs : d.start < h.start
  · rw [if_pos (show d.start < h.start ∧ env.newhashfile = true from ⟨hhs, hnew⟩)]
      at hsc
    cases hE2 : add_to_hashmapM env nh1 d.start (h.start - d.start) none with
    | error e =>
      rw [hE2] at hsc
      exact Except.noConfusion hsc
    | ok nh2 =>
      rw [hE2] at hsc
      simp only [] at hsc
      simp only [if_pos hhs] at hsc
      rw [if_pos (Or.inl hhf)] at hsc
      rw [if_neg (show ¬(env.hasfixup h.start h.size = true) from by simp [hfix])]
        at hsc
      rw [hcmp] at hsc
      simp only [] at hsc
      rw [if_pos hnew] at hsc
      rw [add_to_hashmapM_some_single env nh2 h.start h.size h.hash hsz hfit] at hsc
      simp only [] at hsc
      obtain ⟨dr4, hcl⟩ := coveredLoop_changed0 env h
        ((⟨h.start, d.size - (h.start - d.start)⟩ : Range) :: rest)
        (add_to_range out1 d.start (h.start - d.start))
        (some (nh2.getD [] ++ [⟨h.start, h.size, h.hash⟩]))
      rw [hcl] at hsc
      simp only [Except.ok.injEq] at hsc
      subst hsc
      obtain ⟨preH, hpreH, hmemH⟩ :=
        add_to_hashmapM_ok_bounds env nh1 d.start (h.start - d.start) none nh2 hE2
      constructor
      · intro x hx
        rcases (covP_add_to_range out1 d.start (h.start - d.start) x).mp hx with
          hx' | ⟨h1x, h2x⟩
        · rcases hd1 x hx' with hy | ⟨_, hy⟩
          · exact Or.inl hy
          · exact Or.inr hy
        · exact Or.inr (by omega)
      · refine ⟨preD ++ preH, ?_, ?_⟩
        · show (some (nh2.getD [] ++ [⟨h.start, h.size, h.hash⟩]) : NHInfo).getD [] = _
          simp only [Option.getD_some]
          rw [hpreH, hpreD]
          simp [List.append_assoc]
        · intro e he
          rcases List.mem_append.mp he with he | he
          · exact hmemD e he
          · have := hmemH e he
            omega
  · rw [if_neg (show ¬(d.start < h.start ∧ env.newhashfile = true) from
      fun hc => hhs hc.1)] at hsc
    simp only [] at hsc
    simp only [if_neg hhs] at hsc
    rw [if_pos (Or.inl hhf)] at hsc
    rw [if_neg (show ¬(env.hasfixup h.start h.size = true) from by simp [hfix])]
      at hsc
    rw [hcmp] at hsc
    simp only [] at hsc
    rw [if_pos hnew] at hsc
    rw [add_to_hashmapM_some_single env nh1 h.start h.size h.hash hsz hfit] at hsc
    simp only [] at hsc
    obtain ⟨dr4, hcl⟩ := coveredLoop_changed0 env h (d :: rest) out1
      (some (nh1.getD [] ++ [⟨h.start, h.size, h.hash⟩]))
    rw [hcl] at hsc
    simp only [Except.ok.injEq] at hsc
    subst hsc
    constructor
    · intro x hx
      rcases hd1 x hx with hy | ⟨_, hy⟩
      · exact Or.inl hy
      · exact Or.inr hy
    · refine ⟨preD, ?_, ?_⟩
      · show (some (nh1.getD [] ++ [⟨h.start, h.size, h.hash⟩]) : NHInfo).getD [] = _
        simp only [Option.getD_some]
        rw [hpreD]
      · exact hmemD

/-- Witness for C2 on a boundary-aligned matching hreg `(10, 10)`. -/
theorem claim2_matched_hreg_witness :
    (∀ x, covP (StepRes.out ⟨[], some [⟨10, 10, 20⟩], [], true⟩) x →
      covP ([] : List Range) x ∨ x < 10) ∧
    (∃ pre, (StepRes.nh ⟨[], some [⟨10, 10, 20⟩], [], true⟩).getD [] =
        (none : NHInfo).getD [] ++ pre ++ [⟨10, 10, 20⟩] ∧
      ∀ e ∈ pre, e.start + e.size ≤ 10) :=
  claim2_matched_hreg envCross ⟨10, 10, 20⟩ [⟨10, 10⟩] [] none [] none ⟨10, 10⟩ []
    ⟨[], some [⟨10, 10, 20⟩], [], true⟩
    (by decide) (by decide) (by decide) (by decide) (by decide) (by decide)
    (by decide) (by decide) (by decide) (by decide)

end Frisbee
